import Mathlib

/-!
Verification development for the repeat resolver of the Flye assembler
(`src/repeat_graph/repeat_resolver.h`).

The repository provides only the resolver's header (class `RepeatResolver`
with its member declarations); the bodies of `findRepeats`, `resolveRepeats`,
`clearResolvedRepeats`, `removeUnsupportedEdges`, `getConnections`,
`resolveConnections` and `separatePath` are not part of the sources.  Every
operation below is therefore modelled from the specification, as a shallow
embedding over executable data: the repeat graph is an arena of edges with
stable integer handles, machine integers are `Nat`, and the injected
collaborators (multiplicity estimator, read aligner) are explicit
function-valued parameters.  The header itself is authoritative for the
resolver's constructor signature and the const-qualification of its members,
which is transcribed at the end of the definition section.
-/

/-- Modelled from the spec (section 3): per-edge resolution state tag.
`Unique`, `Repeat-pending`, `Separated`, `Unresolved-retained`. -/
inductive EdgeState where
  | Unique
  | RepeatPending
  | Separated
  | UnresolvedRetained
deriving DecidableEq

/-- Modelled from the spec (section 3): a sequence segment is a reference
(identifier plus start and end offset) into the sequence store; it never
copies the underlying bytes. -/
structure SequenceSegment where
  seqId : Nat
  left : Nat
  right : Nat
deriving DecidableEq

/-- Modelled from the spec (sections 3 and 9): an edge of the repeat graph is
a sequence segment between two junctions, tagged with multiplicity, a state
tag and an accumulated support count.  `origId` records the handle of the
original repeat edge this edge descends from (an edge that was never
separated is its own origin); it backs the multiplicity-conservation
bookkeeping of section 8. -/
structure Edge where
  eid : Nat
  src : Nat
  dst : Nat
  len : Nat
  mult : Nat
  state : EdgeState
  support : Nat
  origId : Nat
  seqId : Nat
deriving DecidableEq

/-- Modelled from the spec (sections 3 and 9): the repeat graph is a directed
multigraph kept as an arena of nodes and edges addressed by stable integer
handles; `nextEdgeId`, `nextNodeId` and `nextSeqId` are the fresh-handle
counters for edges, junctions and newly materialized sequences. -/
structure Graph where
  nodes : List Nat
  edges : List Edge
  nextEdgeId : Nat
  nextNodeId : Nat
  nextSeqId : Nat
deriving DecidableEq

/-- Modelled from the spec (section 3): a graph path is an ordered sequence
of edge handles. -/
abbrev GraphPath := List Nat

/-- Connection, from the header (`RepeatResolver::Connection`): one graph
path paired with the spanning sequence segment of one read. -/
structure Connection where
  path : GraphPath
  readSequence : SequenceSegment
deriving DecidableEq

/-- Modelled from the spec (section 7): a reported multiplicity-inconsistency
diagnostic, naming the offending edge. -/
structure Diag where
  edgeId : Nat
deriving DecidableEq

/-- Modelled from the spec (section 6): the multiplicity estimator is an
injected capability: per edge handle it returns an expected copy number, an
acceptance-support threshold and a confidence value; `minConfidence` is the
configured minimum below which an unsupported edge counts as likely
spurious. -/
structure MultiplicityInferer where
  estMult : Nat → Nat
  supportThreshold : Nat → Nat
  confidence : Nat → Nat
  minConfidence : Nat

/-- Modelled from the spec (section 6): one answer of the read aligner:
a read identifier, the candidate traversal paths of that read (more than one
candidate means the alignment is ambiguous), and the span of the alignment
on the read. -/
structure GraphAlignment where
  readId : Nat
  candidatePaths : List GraphPath
  spanStart : Nat
  spanEnd : Nat
deriving DecidableEq

/-- Modelled from the spec (section 6): the read aligner is consulted only
through its query result, a list of alignments. -/
abbrev ReadAligner := List GraphAlignment

/-- Arena lookup of an edge by its stable handle. -/
def Graph.findEdge (g : Graph) (i : Nat) : Option Edge :=
  g.edges.find? (fun e => e.eid == i)

/-- Well-formedness of the arena: edge handles are pairwise distinct and
below the fresh-handle counter. -/
def Graph.wf (g : Graph) : Prop :=
  (g.edges.map Edge.eid).Nodup ∧ ∀ e ∈ g.edges, e.eid < g.nextEdgeId

instance (g : Graph) : Decidable g.wf := by
  unfold Graph.wf; infer_instance

/-- Number of edges leaving junction `v`. -/
def Graph.outDeg (g : Graph) (v : Nat) : Nat :=
  g.edges.countP (fun e => decide (e.src = v))

/-- Number of edges entering junction `v`. -/
def Graph.inDeg (g : Graph) (v : Nat) : Nat :=
  g.edges.countP (fun e => decide (e.dst = v))

/-- Whether edge `e` is incident to junction `v`. -/
def incident (v : Nat) (e : Edge) : Bool :=
  decide (e.src = v) || decide (e.dst = v)

/-- Degree of a junction: number of live incident edges. -/
def Graph.deg (g : Graph) (v : Nat) : Nat :=
  g.edges.countP (incident v)

/-- Modelled from the spec (section 4.1): local topology shows more than one
path entering and leaving through the edge: at least two edges enter its
source junction and at least two leave its target junction. -/
def topologyAmbiguous (g : Graph) (e : Edge) : Bool :=
  decide (2 ≤ g.inDeg e.src) && decide (2 ≤ g.outDeg e.dst)

/-- Modelled from the spec (section 4.1): an edge is a repeat candidate when
its estimated multiplicity exceeds 1 or the local topology is ambiguous. -/
def isRepeatCandidate (mi : MultiplicityInferer) (g : Graph) (e : Edge) : Bool :=
  decide (1 < mi.estMult e.eid) || topologyAmbiguous g e

/-- Modelled from the spec (section 4.1), body of
`RepeatResolver::findRepeats` (missing from the sources): scan all edges and
mark every repeat candidate `Repeat-pending`; purely a classification pass,
no mutation beyond the state tag. -/
def findRepeats (mi : MultiplicityInferer) (g : Graph) : Graph :=
  { g with edges := g.edges.map (fun e =>
      if isRepeatCandidate mi g e then { e with state := EdgeState.RepeatPending } else e) }

/-- Whether the edge behind handle `i` is currently tagged `Unique`. -/
def isUniqueEdgeId (g : Graph) (i : Nat) : Bool :=
  match g.findEdge i with
  | some e => decide (e.state = EdgeState.Unique)
  | none => false

/-- Whether the edge behind handle `i` is currently tagged `Repeat-pending`. -/
def isRepeatEdgeId (g : Graph) (i : Nat) : Bool :=
  match g.findEdge i with
  | some e => decide (e.state = EdgeState.RepeatPending)
  | none => false

/-- Handles of the distinct `Repeat-pending` edges traversed by a path. -/
def repIdsOf (g : Graph) (path : GraphPath) : List Nat :=
  path.dedup.filter (fun i => isRepeatEdgeId g i)

/-- Modelled from the spec (section 4.3): a path is a fully spanning
traversal when it enters via one unique flanking edge, traverses one or more
repeat edges, and exits via another, distinct unique flanking edge. -/
def spanningPath (g : Graph) (p : GraphPath) : Bool :=
  match p.head?, p.getLast? with
  | some a, some b =>
      isUniqueEdgeId g a && isUniqueEdgeId g b && decide (a ≠ b) &&
        !((p.drop 1).dropLast).isEmpty &&
        ((p.drop 1).dropLast).all (fun j => isRepeatEdgeId g j)
  | _, _ => false

/-- Total assembled length of the edges of a path. -/
def pathLen (g : Graph) (p : GraphPath) : Nat :=
  (p.filterMap (fun i => (g.findEdge i).map Edge.len)).sum

/-- Modelled from the spec (section 4.3): the alignment's read span fully
covers the path. -/
def fullySpans (g : Graph) (a : GraphAlignment) (p : GraphPath) : Bool :=
  decide (pathLen g p ≤ a.spanEnd - a.spanStart)

/-- Modelled from the spec (section 4.3), body of
`RepeatResolver::getConnections` (missing from the sources): each read with a
single unambiguous candidate path that fully spans a unique-repeat-unique
traversal yields one Connection; partially spanning or ambiguous reads are
excluded; the result keeps discovery order and is not deduplicated. -/
def getConnections (g : Graph) (aligner : ReadAligner) : List Connection :=
  aligner.filterMap (fun a =>
    match a.candidatePaths with
    | [p] =>
        if spanningPath g p && fullySpans g a p then
          some { path := p, readSequence := ⟨a.readId, a.spanStart, a.spanEnd⟩ }
        else none
    | _ => none)

/-- Modelled from the spec (section 3): one connection adds one unit of
accumulated support to every `Repeat-pending` edge on its path. -/
def bumpSupport (path : GraphPath) (g : Graph) : Graph :=
  { g with edges := g.edges.map (fun e =>
      if path.contains e.eid && decide (e.state = EdgeState.RepeatPending)
      then { e with support := e.support + 1 } else e) }

/-- Accumulate the support of a whole connection batch on the graph. -/
def accumulateSupport (g : Graph) : List Connection → Graph
  | [] => g
  | c :: cs => accumulateSupport (bumpSupport c.path g) cs

/-- Modelled from the spec (section 4.5): consuming one copy of a traversed
repeat edge: the last unconsumed copy is reclassified in place as `Unique`;
otherwise the remaining multiplicity is decremented by one. -/
def stepEdge (repIds : List Nat) (e : Edge) : Edge :=
  if repIds.contains e.eid then
    if e.mult = 1 then { e with state := EdgeState.Unique }
    else { e with mult := e.mult - 1 }
  else e

/-- Start junction of a path (source of its first edge). -/
def pathSrc (g : Graph) (path : GraphPath) : Nat :=
  match path.head? with
  | some i => match g.findEdge i with
    | some e => e.src
    | none => 0
  | none => 0

/-- End junction of a path (target of its last edge). -/
def pathDst (g : Graph) (path : GraphPath) : Nat :=
  match path.getLast? with
  | some i => match g.findEdge i with
    | some e => e.dst
    | none => 0
  | none => 0

/-- Modelled from the spec (section 4.5): build the new dedicated edge chain
for one separation: one `Separated` copy of multiplicity 1 per repeat edge
that still has further copies, wired from the path's start junction through
fresh internal junctions to its end junction, all referring to the freshly
identified duplicated sequence. -/
def mkChain (seqId : Nat) : Nat → Nat → Nat → Nat → List Edge → List Edge
  | _, _, _, _, [] => []
  | eidB, nodeB, cur, fin, e :: rest =>
      { eid := eidB, src := cur, dst := if rest.isEmpty then fin else nodeB,
        len := e.len, mult := 1, state := EdgeState.Separated, support := 0,
        origId := e.origId, seqId := seqId } ::
      mkChain seqId (eidB + 1) (nodeB + 1) nodeB fin rest

/-- Modelled from the spec (sections 4.5 and 7), body of
`RepeatResolver::separatePath` (missing from the sources, declaration in
repeat_resolver.h lines 36-37).  For one accepted path and its representative
spanning segment: if some traversed repeat edge has no unconsumed copy left,
the decrement would drive consumed multiplicity below zero, so the operation
is not applied at all, the offending edges are tagged `Unresolved-retained`
and the inconsistency is reported as diagnostics.  Otherwise one copy of
every traversed repeat edge is consumed (`stepEdge`), a new `Separated`
chain is created under the fresh identifier `startId`, and no diagnostic is
emitted.  The representative segment argument mirrors the declared C++
signature; the byte content it references is out of scope of the model. -/
def separatePath (g : Graph) (path : GraphPath) (seg : SequenceSegment)
    (startId : Nat) : Graph × List Diag :=
  let reps := (repIdsOf g path).filterMap g.findEdge
  if reps.all (fun e => decide (1 ≤ e.mult)) then
    let repIds := reps.map Edge.eid
    let toCopy := reps.filter (fun e => decide (2 ≤ e.mult))
    let chain := mkChain startId g.nextEdgeId g.nextNodeId
      (pathSrc g path) (pathDst g path) toCopy
    ({ nodes := g.nodes ++ (List.range (toCopy.length - 1)).map (fun k => g.nextNodeId + k),
       edges := g.edges.map (stepEdge repIds) ++ chain,
       nextEdgeId := g.nextEdgeId + toCopy.length,
       nextNodeId := g.nextNodeId + toCopy.length,
       nextSeqId := Nat.max g.nextSeqId (startId + 1) }, [])
  else
    let bad := reps.filter (fun e => decide (e.mult = 0))
    ({ g with edges := g.edges.map (fun e =>
         if (bad.map Edge.eid).contains e.eid
         then { e with state := EdgeState.UnresolvedRetained } else e) },
     bad.map (fun e => ⟨e.eid⟩))

/-- Number of supporting connections of one distinct path in a batch. -/
def supportOf (conns : List Connection) (p : GraphPath) : Nat :=
  conns.countP (fun c => decide (c.path = p))

/-- Distinct paths of a batch in earliest-discovery order: drop every path
already seen, keep the first occurrence of each. -/
def firstOccsAux (seen : List GraphPath) : List GraphPath → List GraphPath
  | [] => []
  | p :: rest =>
      if p ∈ seen then firstOccsAux seen rest
      else p :: firstOccsAux (p :: seen) rest

/-- Distinct paths of a batch in earliest-discovery order (first occurrence
of each path is kept, later duplicates dropped). -/
def firstOccs (l : List GraphPath) : List GraphPath :=
  firstOccsAux [] l

/-- Modelled from the spec (section 4.4): the acceptance-support threshold of
a path is the largest threshold the multiplicity estimator supplies for the
repeat edges it traverses. -/
def pathThreshold (mi : MultiplicityInferer) (g : Graph) (p : GraphPath) : Nat :=
  ((repIdsOf g p).map mi.supportThreshold).foldr Nat.max 0

/-- Modelled from the spec (section 4.4): the distinct confirmed paths whose
support count meets or exceeds their threshold, in discovery order. -/
def acceptablePaths (mi : MultiplicityInferer) (g : Graph)
    (conns : List Connection) : List GraphPath :=
  (firstOccs (conns.map Connection.path)).filter
    (fun p => decide (pathThreshold mi g p ≤ supportOf conns p))

/-- A distinct confirmed path together with its discovery rank. -/
structure ScoredPath where
  idx : Nat
  path : GraphPath
deriving DecidableEq

/-- Pair each element of a list with its position, starting at `n`. -/
def withIdx : Nat → List GraphPath → List ScoredPath
  | _, [] => []
  | n, p :: ps => ⟨n, p⟩ :: withIdx (n + 1) ps

/-- Stable insertion into a list kept in descending-support order: the new
element goes in front of the first entry whose support does not exceed its
own, hence after every strictly better entry and before every
later-discovered tie. -/
def insertScored (cnt : GraphPath → Nat) (x : ScoredPath) :
    List ScoredPath → List ScoredPath
  | [] => [x]
  | y :: rest =>
      if cnt x.path < cnt y.path then y :: insertScored cnt x rest
      else x :: y :: rest

/-- Stable sort of the scored paths by descending support, ties kept in
earliest-discovery order. -/
def sortScored (cnt : GraphPath → Nat) : List ScoredPath → List ScoredPath
  | [] => []
  | x :: rest => insertScored cnt x (sortScored cnt rest)

/-- Modelled from the spec (section 4.4): the acceptable distinct paths of a
batch, sorted by descending support with ties broken by earliest discovery. -/
def sortedCandidates (mi : MultiplicityInferer) (g : Graph)
    (conns : List Connection) : List ScoredPath :=
  sortScored (supportOf conns) (withIdx 0 (acceptablePaths mi g conns))

/-- Modelled from the spec (section 4.4): a path still fits into the
multiplicity budget when it traverses at least one edge that is still
`Repeat-pending` and every such edge has at least one unconsumed copy. -/
def hasBudget (g : Graph) (p : GraphPath) : Bool :=
  !(repIdsOf g p).isEmpty &&
    (repIdsOf g p).all (fun i =>
      match g.findEdge i with
      | some e => decide (1 ≤ e.mult)
      | none => false)

/-- Representative spanning segment of a distinct path: the segment of the
first connection confirming it. -/
def representativeSeg (conns : List Connection) (p : GraphPath) : SequenceSegment :=
  match conns.find? (fun c => decide (c.path = p)) with
  | some c => c.readSequence
  | none => ⟨0, 0, 0⟩

/-- Result of the greedy acceptance pass: the rewritten graph, the accepted
scored paths in acceptance order, and the collected diagnostics. -/
structure ResolveOutcome where
  graph : Graph
  accepted : List ScoredPath
  diags : List Diag
deriving DecidableEq

/-- Modelled from the spec (section 4.4): walk the sorted acceptable paths
greedily; a path that still fits the multiplicity budget is accepted and its
graph rewrite (`separatePath`) performed at once under the next fresh
sequence identifier; a path whose budget is exhausted is left unresolved. -/
def greedyAccept (conns : List Connection) : Graph → List ScoredPath → ResolveOutcome
  | g, [] => ⟨g, [], []⟩
  | g, x :: rest =>
      if hasBudget g x.path then
        let r := separatePath g x.path (representativeSeg conns x.path) g.nextSeqId
        let out := greedyAccept conns r.1 rest
        ⟨out.graph, x :: out.accepted, r.2 ++ out.diags⟩
      else
        greedyAccept conns g rest

/-- Modelled from the spec (section 4.4), body of
`RepeatResolver::resolveConnections` (missing from the sources): group the
connections by distinct path, keep the acceptable ones, resolve conflicts
greedily in descending-support order, rewrite the graph for each accepted
path, and return the number of accepted paths together with any collected
diagnostics. -/
def resolveConnections (mi : MultiplicityInferer) (g : Graph)
    (conns : List Connection) : Graph × Nat × List Diag :=
  let out := greedyAccept conns g (sortedCandidates mi g conns)
  (out.graph, out.accepted.length, out.diags)

/-- Reference fold for the accepted paths: perform the separations of a list
of accepted paths one after the other, each under the then-fresh sequence
identifier. -/
def applyAccepted (conns : List Connection) : Graph → List ScoredPath → Graph
  | g, [] => g
  | g, x :: rest =>
      applyAccepted conns
        (separatePath g x.path (representativeSeg conns x.path) g.nextSeqId).1 rest

/-- Modelled from the spec (section 4.7), body of
`RepeatResolver::clearResolvedRepeats` (missing from the sources): clear the
pending-resolution bookkeeping of edges separated or reclassified; pure
bookkeeping, no topology change. -/
def clearResolvedRepeats (g : Graph) : Graph :=
  { g with edges := g.edges.map (fun e =>
      if decide (e.state = EdgeState.Separated) || decide (e.state = EdgeState.Unique)
      then { e with support := 0 } else e) }

/-- Remove every edge with the given handle from the arena. -/
def eraseEdge (g : Graph) (i : Nat) : Graph :=
  { g with edges := g.edges.filter (fun e => e.eid != i) }

/-- Retag the edge with the given handle. -/
def setEdgeState (g : Graph) (i : Nat) (s : EdgeState) : Graph :=
  { g with edges := g.edges.map (fun e =>
      if e.eid == i then { e with state := s } else e) }

/-- Modelled from the spec (section 4.6): deleting the edge is safe exactly
when both of its junctions keep a positive degree afterwards. -/
def safeRemoval (g : Graph) (i : Nat) : Bool :=
  match g.findEdge i with
  | some e =>
      decide (0 < (eraseEdge g i).deg e.src) && decide (0 < (eraseEdge g i).deg e.dst)
  | none => false

/-- Modelled from the spec (section 4.6): process the removal candidates one
at a time against the current graph; a safe candidate is deleted (and
counted), an unsafe one is retained and tagged `Unresolved-retained`. -/
def pruneEdges : Graph → List Nat → Graph × Nat
  | g, [] => (g, 0)
  | g, i :: rest =>
      if safeRemoval g i then
        let r := pruneEdges (eraseEdge g i) rest
        (r.1, r.2 + 1)
      else
        pruneEdges (setEdgeState g i EdgeState.UnresolvedRetained) rest

/-- Modelled from the spec (section 4.6), body of
`RepeatResolver::removeUnsupportedEdges` (missing from the sources): the
removal candidates are the `Repeat-pending` edges with zero accumulated
support whose estimator confidence is below the configured minimum; they are
pruned where safe, and the number of performed deletions is returned. -/
def removeUnsupportedEdges (mi : MultiplicityInferer) (g : Graph) : Graph × Nat :=
  pruneEdges g
    ((g.edges.filter (fun e =>
        decide (e.state = EdgeState.RepeatPending) && decide (e.support = 0) &&
        decide (mi.confidence e.eid < mi.minConfidence))).map Edge.eid)

/-- Outcome of one iteration of the resolution driver: the resulting graph,
the number of accepted separations, the number of removals, and the
diagnostics of the iteration. -/
structure IterResult where
  graph : Graph
  accepted : Nat
  removed : Nat
  diags : List Diag
deriving DecidableEq

/-- Modelled from the spec (section 4.2): one iteration of the driver:
collect connections, accumulate their support, resolve them (scoring,
acceptance and rewriting), clear the resolved bookkeeping, then prune
unsupported edges where safe. -/
def oneIteration (mi : MultiplicityInferer) (al : ReadAligner) (g : Graph) : IterResult :=
  let conns := getConnections g al
  let g1 := accumulateSupport g conns
  let r := resolveConnections mi g1 conns
  let g2 := clearResolvedRepeats r.1
  let pr := removeUnsupportedEdges mi g2
  ⟨pr.1, r.2.1, pr.2, r.2.2⟩

/-- Modelled from the spec (section 4.2): the bounded resolution loop, fueled
by the remaining iteration budget: stop on convergence (zero accepted
separations and zero removals this pass) or when the budget runs out;
diagnostics of all iterations are concatenated. -/
def resolveRepeatsAux (mi : MultiplicityInferer) (al : ReadAligner) :
    Nat → Graph → Graph × List Diag
  | 0, g => (g, [])
  | Nat.succ n, g =>
      let r := oneIteration mi al g
      if r.accepted = 0 ∧ r.removed = 0 then (r.graph, r.diags)
      else
        let rest := resolveRepeatsAux mi al n r.graph
        (rest.1, r.diags ++ rest.2)

/-- Modelled from the spec (sections 4.2 and 5): the iteration cap is a
configured liveness guard; its exact value is an external configuration
parameter, fixed here representatively. -/
def iterationCap : Nat := 20

/-- Modelled from the spec (section 4.2), body of
`RepeatResolver::resolveRepeats` (missing from the sources): run the bounded
resolution loop under the configured iteration cap.  The C++ method returns
no value and mutates the graph in place; the functional model returns the
final graph state together with the reported diagnostics. -/
def resolveRepeats (mi : MultiplicityInferer) (al : ReadAligner) (g : Graph) :
    Graph × List Diag :=
  resolveRepeatsAux mi al iterationCap g

/-- Graph state after `k` iterations of the driver. -/
def iterGraph (mi : MultiplicityInferer) (al : ReadAligner) : Nat → Graph → Graph
  | 0, g => g
  | Nat.succ n, g => iterGraph mi al n (oneIteration mi al g).graph

/-- Convergence predicate of the driver on a graph state: the next iteration
would accept zero separations and perform zero removals. -/
def convergedAt (mi : MultiplicityInferer) (al : ReadAligner) (g : Graph) : Prop :=
  (oneIteration mi al g).accepted = 0 ∧ (oneIteration mi al g).removed = 0

/-- Multiplicity mass a list of edges carries for origin handle `o`. -/
def multOfList (es : List Edge) (o : Nat) : Nat :=
  (es.map (fun e => if e.origId = o then e.mult else 0)).sum

/-- Total multiplicity mass the graph carries for origin handle `o`. -/
def Graph.multOf (g : Graph) (o : Nat) : Nat :=
  multOfList g.edges o

/-- Remaining multiplicity of the original edge with handle `o` itself. -/
def Graph.remainingMult (g : Graph) (o : Nat) : Nat :=
  ((g.edges.filter (fun e => e.eid == o)).map Edge.mult).sum

/-- Summed multiplicity of the separated descendants of the original edge
with handle `o`: every edge derived from it other than the original. -/
def Graph.descMult (g : Graph) (o : Nat) : Nat :=
  ((g.edges.filter (fun e => decide (e.origId = o) && !(e.eid == o))).map Edge.mult).sum

/-- One recorded invocation of `separatePath`. -/
structure SepCall where
  path : GraphPath
  seg : SequenceSegment
  startId : Nat
deriving DecidableEq

/-- Apply a recorded sequence of separations to a graph. -/
def applySeps : List SepCall → Graph → Graph
  | [], g => g
  | c :: cs, g => applySeps cs (separatePath g c.path c.seg c.startId).1

/-- Non-state payload of an edge, used to express that an operation mutates
nothing beyond the state tag. -/
def edgeShape (e : Edge) : Nat × Nat × Nat × Nat × Nat × Nat × Nat × Nat :=
  (e.eid, e.src, e.dst, e.len, e.mult, e.support, e.origId, e.seqId)

/-- Members of the `RepeatResolver` class. -/
inductive ResolverMember where
  | graphRef
  | asmSeqsRef
  | readSeqsRef
  | alignerRef
  | multInfRef
deriving DecidableEq

/-- Transcribed from the member declarations of `RepeatResolver`
(repeat_resolver.h, lines 39-43): which members the header declares as const
references.  `RepeatGraph& _graph` and `ReadAligner& _aligner` are mutable
references; `const SequenceContainer& _asmSeqs`,
`const SequenceContainer& _readSeqs` and
`const MultiplicityInferer& _multInf` are const references. -/
def memberIsConstRef : ResolverMember → Bool
  | ResolverMember.graphRef => false
  | ResolverMember.asmSeqsRef => true
  | ResolverMember.readSeqsRef => true
  | ResolverMember.alignerRef => false
  | ResolverMember.multInfRef => true

/-- Concrete estimator used by the witnesses: edge 2 has copy number 2,
threshold 2, and every edge has confidence 0 against minimum 1. -/
def miW : MultiplicityInferer :=
  ⟨fun i => if i = 2 then 2 else 1, fun _ => 2, fun _ => 0, 1⟩

/-- Concrete witness graph: two unique flanks 0 and 1, a repeat edge 2 of
multiplicity 2 between them, and a second unique entry edge 3. -/
def gW : Graph :=
  { nodes := [0, 1, 2, 3],
    edges := [
      ⟨0, 0, 1, 10, 1, EdgeState.Unique, 0, 0, 100⟩,
      ⟨1, 2, 3, 10, 1, EdgeState.Unique, 0, 1, 101⟩,
      ⟨2, 1, 2, 5, 2, EdgeState.RepeatPending, 0, 2, 102⟩,
      ⟨3, 0, 1, 10, 1, EdgeState.Unique, 0, 3, 103⟩],
    nextEdgeId := 4, nextNodeId := 4, nextSeqId := 200 }

/-- Concrete witness aligner: two unambiguous fully spanning reads for the
path 0-2-1 and one for the path 3-2-1. -/
def alW : ReadAligner :=
  [⟨50, [[0, 2, 1]], 0, 30⟩, ⟨51, [[3, 2, 1]], 0, 30⟩, ⟨52, [[0, 2, 1]], 0, 30⟩]

/-- Variant of the witness graph whose repeat edge has no unconsumed copy. -/
def gzW : Graph :=
  { gW with edges := [
      ⟨0, 0, 1, 10, 1, EdgeState.Unique, 0, 0, 100⟩,
      ⟨1, 2, 3, 10, 1, EdgeState.Unique, 0, 1, 101⟩,
      ⟨2, 1, 2, 5, 0, EdgeState.RepeatPending, 0, 2, 102⟩,
      ⟨3, 0, 1, 10, 1, EdgeState.Unique, 0, 3, 103⟩] }

/-- Variant of the witness graph whose repeat edge has exactly one copy. -/
def gbW : Graph :=
  { gW with edges := [
      ⟨0, 0, 1, 10, 1, EdgeState.Unique, 0, 0, 100⟩,
      ⟨1, 2, 3, 10, 1, EdgeState.Unique, 0, 1, 101⟩,
      ⟨2, 1, 2, 5, 1, EdgeState.RepeatPending, 0, 2, 102⟩,
      ⟨3, 0, 1, 10, 1, EdgeState.Unique, 0, 3, 103⟩] }

/-- Connection witnesses on `gW`. -/
def caW : Connection := ⟨[0, 2, 1], ⟨50, 0, 30⟩⟩

/-- Second connection witness on `gW`. -/
def cbW : Connection := ⟨[3, 2, 1], ⟨51, 0, 30⟩⟩

/-- The distinct `Repeat-pending` edges traversed by a path, as edge records
(the evidence `separatePath` works on). -/
def pathReps (g : Graph) (path : GraphPath) : List Edge :=
  (repIdsOf g path).filterMap g.findEdge

/-- The traversed repeat edges that keep further copies after consuming one,
hence get a `Separated` copy in the new chain. -/
def sepCopies (g : Graph) (path : GraphPath) : List Edge :=
  (pathReps g path).filter (fun e => decide (2 ≤ e.mult))

/-- The traversed repeat edges with no unconsumed copy left (the offenders of
a multiplicity inconsistency). -/
def sepBad (g : Graph) (path : GraphPath) : List Edge :=
  (pathReps g path).filter (fun e => decide (e.mult = 0))

theorem findEdge_eid {g : Graph} {i : Nat} {e : Edge} (h : g.findEdge i = some e) :
    e.eid = i := by
  unfold Graph.findEdge at h
  simpa using List.find?_some h

theorem findEdge_mem {g : Graph} {i : Nat} {e : Edge} (h : g.findEdge i = some e) :
    e ∈ g.edges :=
  List.mem_of_find?_eq_some h

theorem eq_of_eid_eq {g : Graph} (hw : (g.edges.map Edge.eid).Nodup) {x y : Edge}
    (hx : x ∈ g.edges) (hy : y ∈ g.edges) (hxy : x.eid = y.eid) : x = y :=
  List.inj_on_of_nodup_map hw hx hy hxy

theorem graph_eq_of_fields {g1 g2 : Graph} (hn : g1.nodes = g2.nodes)
    (he : g1.edges = g2.edges) (h1 : g1.nextEdgeId = g2.nextEdgeId)
    (h2 : g1.nextNodeId = g2.nextNodeId) (h3 : g1.nextSeqId = g2.nextSeqId) :
    g1 = g2 := by
  cases g1; cases g2; simp_all

theorem findEdge_of_mem {g : Graph} (hw : (g.edges.map Edge.eid).Nodup) {x : Edge}
    (hx : x ∈ g.edges) : g.findEdge x.eid = some x := by
  unfold Graph.findEdge
  cases h : g.edges.find? (fun e => e.eid == x.eid) with
  | none =>
      have h2 := List.find?_eq_none.mp h x hx
      simp at h2
  | some e =>
      have he : e ∈ g.edges := List.mem_of_find?_eq_some h
      have heq : e.eid = x.eid := by simpa using List.find?_some h
      exact congrArg some (eq_of_eid_eq hw he hx heq)

/-- C10 counterexample: the claim asserts that the read aligner is read-only
from the resolver's perspective, but the header declares the member
`ReadAligner& _aligner` as a mutable, non-const reference, unlike the two
sequence containers and the multiplicity estimator, so the type-level
read-only guarantee does not hold for the aligner. -/
theorem aligner_member_not_const : memberIsConstRef ResolverMember.alignerRef = false :=
  rfl

/-- C10 (amended): the sequence store (assembled and read sequences) and the
multiplicity estimator are declared as const references and are read-only
from the resolver's perspective; the repeat graph and the read aligner are
declared as mutable references and may be modified by the resolver. -/
theorem collaborator_const_discipline :
    memberIsConstRef ResolverMember.asmSeqsRef = true ∧
    memberIsConstRef ResolverMember.readSeqsRef = true ∧
    memberIsConstRef ResolverMember.multInfRef = true ∧
    memberIsConstRef ResolverMember.graphRef = false ∧
    memberIsConstRef ResolverMember.alignerRef = false :=
  ⟨rfl, rfl, rfl, rfl, rfl⟩

theorem stepEdge_eid (ids : List Nat) (e : Edge) : (stepEdge ids e).eid = e.eid := by
  unfold stepEdge
  split <;> [skip; rfl]
  split <;> rfl

theorem stepEdge_src (ids : List Nat) (e : Edge) : (stepEdge ids e).src = e.src := by
  unfold stepEdge
  split <;> [skip; rfl]
  split <;> rfl

theorem stepEdge_dst (ids : List Nat) (e : Edge) : (stepEdge ids e).dst = e.dst := by
  unfold stepEdge
  split <;> [skip; rfl]
  split <;> rfl

theorem stepEdge_origId (ids : List Nat) (e : Edge) : (stepEdge ids e).origId = e.origId := by
  unfold stepEdge
  split <;> [skip; rfl]
  split <;> rfl

theorem findRepeats_edge_fields (mi : MultiplicityInferer) (g : Graph) (e : Edge) :
    edgeShape (if isRepeatCandidate mi g e then { e with state := EdgeState.RepeatPending } else e) =
      edgeShape e := by
  split <;> rfl

theorem findRepeats_inDeg (mi : MultiplicityInferer) (g : Graph) (v : Nat) :
    (findRepeats mi g).inDeg v = g.inDeg v := by
  unfold findRepeats Graph.inDeg
  simp only [List.countP_map]
  apply List.countP_congr
  intro e _
  simp only [Function.comp_apply]
  split <;> rfl

theorem findRepeats_outDeg (mi : MultiplicityInferer) (g : Graph) (v : Nat) :
    (findRepeats mi g).outDeg v = g.outDeg v := by
  unfold findRepeats Graph.outDeg
  simp only [List.countP_map]
  apply List.countP_congr
  intro e _
  simp only [Function.comp_apply]
  split <;> rfl

theorem isRepeatCandidate_findRepeats (mi : MultiplicityInferer) (g : Graph) (e : Edge) :
    isRepeatCandidate mi (findRepeats mi g)
        (if isRepeatCandidate mi g e then { e with state := EdgeState.RepeatPending } else e) =
      isRepeatCandidate mi g e := by
  unfold isRepeatCandidate topologyAmbiguous
  rw [findRepeats_inDeg, findRepeats_outDeg]
  split <;> rfl

/-- C5: repeat detection is idempotent (running `findRepeats` twice on the
same graph equals running it once) and is purely a classification pass: it
preserves the junctions, the handle counters, and every edge attribute other
than the state tag. -/
theorem findRepeats_idempotent (mi : MultiplicityInferer) (g : Graph) :
    findRepeats mi (findRepeats mi g) = findRepeats mi g ∧
    (findRepeats mi g).nodes = g.nodes ∧
    (findRepeats mi g).edges.map edgeShape = g.edges.map edgeShape ∧
    (findRepeats mi g).nextEdgeId = g.nextEdgeId ∧
    (findRepeats mi g).nextNodeId = g.nextNodeId ∧
    (findRepeats mi g).nextSeqId = g.nextSeqId := by
  have hedges : (findRepeats mi (findRepeats mi g)).edges = (findRepeats mi g).edges := by
    have step1 : (findRepeats mi (findRepeats mi g)).edges =
        (findRepeats mi g).edges.map (fun e =>
          if isRepeatCandidate mi (findRepeats mi g) e
          then { e with state := EdgeState.RepeatPending } else e) := rfl
    have step2 : (findRepeats mi g).edges = g.edges.map (fun e =>
        if isRepeatCandidate mi g e then { e with state := EdgeState.RepeatPending } else e) := rfl
    rw [step1]
    conv_lhs => rw [step2]
    conv_rhs => rw [step2]
    rw [List.map_map]
    apply List.map_congr_left
    intro e he
    simp only [Function.comp_apply]
    rw [isRepeatCandidate_findRepeats mi g e]
    by_cases hc : isRepeatCandidate mi g e = true
    · simp only [hc, if_true]
    · simp only [hc, if_false, Bool.false_eq_true]
  refine ⟨?_, rfl, ?_, rfl, rfl, rfl⟩
  · exact graph_eq_of_fields rfl hedges rfl rfl rfl
  · show (g.edges.map (fun e =>
        if isRepeatCandidate mi g e then { e with state := EdgeState.RepeatPending } else e)).map
          edgeShape = g.edges.map edgeShape
    rw [List.map_map]
    apply List.map_congr_left
    intro e _
    exact findRepeats_edge_fields mi g e

theorem separatePath_eq_good (g : Graph) (path : GraphPath) (seg : SequenceSegment)
    (sid : Nat) (hall : (pathReps g path).all (fun e => decide (1 ≤ e.mult)) = true) :
    separatePath g path seg sid =
      ({ nodes := g.nodes ++ (List.range ((sepCopies g path).length - 1)).map
            (fun k => g.nextNodeId + k),
         edges := g.edges.map (stepEdge ((pathReps g path).map Edge.eid)) ++
           mkChain sid g.nextEdgeId g.nextNodeId (pathSrc g path) (pathDst g path)
             (sepCopies g path),
         nextEdgeId := g.nextEdgeId + (sepCopies g path).length,
         nextNodeId := g.nextNodeId + (sepCopies g path).length,
         nextSeqId := Nat.max g.nextSeqId (sid + 1) }, []) := by
  unfold separatePath
  unfold pathReps at hall
  rw [if_pos hall]
  rfl

theorem separatePath_eq_bad (g : Graph) (path : GraphPath) (seg : SequenceSegment)
    (sid : Nat) (hall : (pathReps g path).all (fun e => decide (1 ≤ e.mult)) = false) :
    separatePath g path seg sid =
      ({ g with edges := g.edges.map (fun e =>
           if ((sepBad g path).map Edge.eid).contains e.eid
           then { e with state := EdgeState.UnresolvedRetained } else e) },
       (sepBad g path).map (fun e => ⟨e.eid⟩)) := by
  unfold separatePath
  unfold pathReps at hall
  rw [if_neg (by simp [hall])]
  rfl

theorem multOfList_cons (e : Edge) (l : List Edge) (o : Nat) :
    multOfList (e :: l) o = (if e.origId = o then e.mult else 0) + multOfList l o := by
  simp [multOfList]

theorem multOfList_append (l1 l2 : List Edge) (o : Nat) :
    multOfList (l1 ++ l2) o = multOfList l1 o + multOfList l2 o := by
  simp [multOfList]

theorem multOfList_map_preserve (f : Edge → Edge)
    (h : ∀ e, (f e).origId = e.origId ∧ (f e).mult = e.mult) (o : Nat) :
    ∀ l : List Edge, multOfList (l.map f) o = multOfList l o := by
  intro l
  induction l with
  | nil => rfl
  | cons e l ih =>
      rw [List.map_cons, multOfList_cons, multOfList_cons, ih, (h e).1, (h e).2]

theorem stepEdge_mult_of_one {ids : List Nat} {e : Edge} (h1 : e.mult = 1) :
    (stepEdge ids e).mult = e.mult := by
  unfold stepEdge
  by_cases hc : ids.contains e.eid = true
  · rw [if_pos hc, if_pos h1]
  · rw [if_neg hc]

theorem stepEdge_mult_of_ne_one {ids : List Nat} {e : Edge}
    (hc : ids.contains e.eid = true) (h1 : ¬e.mult = 1) :
    (stepEdge ids e).mult = e.mult - 1 := by
  unfold stepEdge
  rw [if_pos hc, if_neg h1]

theorem stepEdge_not_mem {ids : List Nat} {e : Edge} (hc : ¬ids.contains e.eid = true) :
    stepEdge ids e = e := by
  unfold stepEdge
  rw [if_neg hc]

theorem multOfList_stepEdge (ids : List Nat) (o : Nat) :
    ∀ l : List Edge,
      multOfList (l.map (stepEdge ids)) o +
        l.countP (fun e => ids.contains e.eid &&
          (decide (2 ≤ e.mult) && decide (e.origId = o))) =
      multOfList l o := by
  intro l
  induction l with
  | nil => rfl
  | cons e l ih =>
      rw [List.map_cons, multOfList_cons, multOfList_cons, List.countP_cons,
        stepEdge_origId]
      have key : (if e.origId = o then (stepEdge ids e).mult else 0) +
          (if (ids.contains e.eid && (decide (2 ≤ e.mult) && decide (e.origId = o)))
            then 1 else 0) = (if e.origId = o then e.mult else 0) := by
        by_cases ho : e.origId = o
        · by_cases hc : ids.contains e.eid = true
          · by_cases h1 : e.mult = 1
            · rw [stepEdge_mult_of_one h1]
              have hcond : (ids.contains e.eid &&
                  (decide (2 ≤ e.mult) && decide (e.origId = o))) = false := by
                simp [h1]
              rw [hcond]
              simp
            · rw [stepEdge_mult_of_ne_one hc h1]
              by_cases h2 : 2 ≤ e.mult
              · have hcond : (ids.contains e.eid &&
                    (decide (2 ≤ e.mult) && decide (e.origId = o))) = true := by
                  rw [Bool.and_eq_true]
                  exact ⟨hc, by simp [h2, ho]⟩
                rw [hcond]
                simp only [ho, if_true, if_pos rfl]
                omega
              · have h0 : e.mult = 0 := by omega
                have hcond : (ids.contains e.eid &&
                    (decide (2 ≤ e.mult) && decide (e.origId = o))) = false := by
                  simp [h2]
                rw [hcond]
                simp [ho, h0]
          · rw [stepEdge_not_mem hc]
            have hcond : (ids.contains e.eid &&
                (decide (2 ≤ e.mult) && decide (e.origId = o))) = false := by
              rw [Bool.and_eq_false_iff]
              left
              simpa using hc
            rw [hcond]
            simp
        · have hcond : (ids.contains e.eid &&
              (decide (2 ≤ e.mult) && decide (e.origId = o))) = false := by
            simp [ho]
          rw [hcond]
          simp [ho]
      omega

theorem mkChain_length (s : Nat) :
    ∀ (a b c d : Nat) (l : List Edge), (mkChain s a b c d l).length = l.length := by
  intro a b c d l
  induction l generalizing a b c with
  | nil => rfl
  | cons e l ih => simp [mkChain, ih]

theorem mkChain_eids (s : Nat) :
    ∀ (a b c d : Nat) (l : List Edge),
      (mkChain s a b c d l).map Edge.eid = List.range' a l.length := by
  intro a b c d l
  induction l generalizing a b c with
  | nil => rfl
  | cons e l ih =>
      simp only [mkChain, List.map_cons, List.length_cons, List.range'_succ]
      rw [ih]

theorem multOfList_mkChain (s o : Nat) :
    ∀ (a b c d : Nat) (l : List Edge),
      multOfList (mkChain s a b c d l) o = l.countP (fun e => decide (e.origId = o)) := by
  intro a b c d l
  induction l generalizing a b c with
  | nil => rfl
  | cons e l ih =>
      simp only [mkChain, multOfList_cons, List.countP_cons, ih]
      by_cases ho : e.origId = o <;> simp [ho] <;> omega

theorem mkChain_mem_orig (s : Nat) :
    ∀ (a b c d : Nat) (l : List Edge) (x : Edge),
      x ∈ mkChain s a b c d l → ∃ y ∈ l, x.origId = y.origId := by
  intro a b c d l
  induction l generalizing a b c with
  | nil => intro x hx; simp [mkChain] at hx
  | cons e l ih =>
      intro x hx
      simp only [mkChain, List.mem_cons] at hx
      rcases hx with hx | hx
      · exact ⟨e, List.mem_cons_self _ _, by rw [hx]⟩
      · obtain ⟨y, hy, hxy⟩ := ih _ _ _ x hx
        exact ⟨y, List.mem_cons_of_mem _ hy, hxy⟩

theorem countP_or_split {α : Type} (p q : α → Bool) :
    ∀ l : List α, (∀ a ∈ l, ¬(p a = true ∧ q a = true)) →
      l.countP (fun a => p a || q a) = l.countP p + l.countP q := by
  intro l
  induction l with
  | nil => intro; rfl
  | cons a l ih =>
      intro h
      rw [List.countP_cons, List.countP_cons, List.countP_cons,
        ih (fun x hx => h x (List.mem_cons_of_mem _ hx))]
      have ha := h a (List.mem_cons_self _ _)
      cases hp : p a <;> cases hq : q a <;> simp_all <;> omega

theorem countP_ext {α : Type} {p q : α → Bool} {l : List α} (h : ∀ x ∈ l, p x = q x) :
    l.countP p = l.countP q :=
  List.countP_congr (fun x hx => by rw [h x hx])

theorem find?_filter_single :
    ∀ {l : List Edge}, (l.map Edge.eid).Nodup → ∀ {i : Nat} {e : Edge},
      l.find? (fun x => x.eid == i) = some e → l.filter (fun x => x.eid == i) = [e] := by
  intro l
  induction l with
  | nil => intro _ i e h; simp at h
  | cons a l ih =>
      intro hw i e h
      rw [List.map_cons, List.nodup_cons] at hw
      by_cases ha : (a.eid == i) = true
      · rw [@List.find?_cons_of_pos _ (fun x => x.eid == i) a l ha] at h
        injection h with h
        subst h
        rw [@List.filter_cons_of_pos _ (fun x => x.eid == i) a l ha]
        have hnil : l.filter (fun x => x.eid == i) = [] := by
          rw [List.filter_eq_nil_iff]
          intro x hx hxi
          apply hw.1
          have hxi2 : x.eid = i := by simpa using hxi
          have hai : a.eid = i := by simpa using ha
          rw [hai, ← hxi2]
          exact List.mem_map_of_mem Edge.eid hx
        rw [hnil]
      · rw [@List.find?_cons_of_neg _ (fun x => x.eid == i) a l ha] at h
        rw [@List.filter_cons_of_neg _ (fun x => x.eid == i) a l ha]
        exact ih hw.2 h

theorem countP_eid_single {l : List Edge} (hw : (l.map Edge.eid).Nodup) {i : Nat} {e : Edge}
    (h : l.find? (fun x => x.eid == i) = some e) (Q : Edge → Bool) :
    l.countP (fun x => x.eid == i && Q x) = if Q e then 1 else 0 := by
  have h2 : l.countP (fun x => x.eid == i && Q x) =
      l.countP (fun x => Q x && (x.eid == i)) :=
    countP_ext (fun x _ => Bool.and_comm _ _)
  rw [h2, ← List.countP_filter, find?_filter_single hw h]
  simp [List.countP_cons]

theorem countP_contains_ids {l : List Edge} (hw : (l.map Edge.eid).Nodup) :
    ∀ rs : List Edge, (rs.map Edge.eid).Nodup →
      (∀ r ∈ rs, l.find? (fun x => x.eid == r.eid) = some r) →
      ∀ Q : Edge → Bool,
        l.countP (fun x => (rs.map Edge.eid).contains x.eid && Q x) = rs.countP Q := by
  intro rs
  induction rs with
  | nil =>
      intro _ _ Q
      simp
  | cons r rs ih =>
      intro hnr hval Q
      rw [List.map_cons, List.nodup_cons] at hnr
      have step : ∀ x ∈ l, (((r :: rs).map Edge.eid).contains x.eid && Q x) =
          ((x.eid == r.eid && Q x) || ((rs.map Edge.eid).contains x.eid && Q x)) := by
        intro x _
        rw [List.map_cons, List.contains_cons]
        cases hxr : x.eid == r.eid <;> cases (rs.map Edge.eid).contains x.eid <;>
          cases Q x <;> rfl
      rw [countP_ext step, countP_or_split]
      · rw [countP_eid_single hw (hval r (List.mem_cons_self _ _)) Q,
          ih hnr.2 (fun x hx => hval x (List.mem_cons_of_mem _ hx)) Q,
          List.countP_cons]
        omega
      · intro x _ hx
        obtain ⟨h1, h2⟩ := hx
        apply hnr.1
        have h3 : x.eid = r.eid := by simpa using ((Bool.and_eq_true _ _).mp h1).1
        have h4 : x.eid ∈ rs.map Edge.eid := by
          have := ((Bool.and_eq_true _ _).mp h2).1
          simpa using this
        rw [← h3]
        exact h4

theorem repIdsOf_isSome {g : Graph} {path : GraphPath} :
    ∀ i ∈ repIdsOf g path, (g.findEdge i).isSome = true := by
  intro i hi
  have hcond := List.of_mem_filter hi
  unfold isRepeatEdgeId at hcond
  cases h : g.findEdge i with
  | none => rw [h] at hcond; simp at hcond
  | some e => rfl

theorem map_eid_filterMap (g : Graph) :
    ∀ ids : List Nat, (∀ i ∈ ids, (g.findEdge i).isSome = true) →
      (ids.filterMap g.findEdge).map Edge.eid = ids := by
  intro ids
  induction ids with
  | nil => intro _; rfl
  | cons i ids ih =>
      intro h
      cases hfi : g.findEdge i with
      | none =>
          have h2 := h i (List.mem_cons_self _ _)
          rw [hfi] at h2
          simp at h2
      | some e =>
          rw [List.filterMap_cons, hfi, List.map_cons,
            ih (fun j hj => h j (List.mem_cons_of_mem _ hj)), findEdge_eid hfi]

theorem pathReps_eids (g : Graph) (path : GraphPath) :
    (pathReps g path).map Edge.eid = repIdsOf g path :=
  map_eid_filterMap g _ repIdsOf_isSome

theorem repIdsOf_nodup (g : Graph) (path : GraphPath) : (repIdsOf g path).Nodup :=
  (List.nodup_dedup path).filter _

theorem pathReps_nodup_eids (g : Graph) (path : GraphPath) :
    ((pathReps g path).map Edge.eid).Nodup := by
  rw [pathReps_eids]
  exact repIdsOf_nodup g path

theorem pathReps_find (g : Graph) (path : GraphPath) :
    ∀ r ∈ pathReps g path, g.findEdge r.eid = some r := by
  intro r hr
  obtain ⟨i, hi, hfi⟩ := List.mem_filterMap.mp hr
  rw [show r.eid = i from findEdge_eid hfi]
  exact hfi

theorem multOf_separatePath (g : Graph) (hw : g.wf) (path : GraphPath)
    (seg : SequenceSegment) (sid : Nat) (o : Nat) :
    ((separatePath g path seg sid).1).multOf o = g.multOf o := by
  by_cases hall : (pathReps g path).all (fun e => decide (1 ≤ e.mult)) = true
  · rw [separatePath_eq_good g path seg sid hall]
    show multOfList (g.edges.map (stepEdge ((pathReps g path).map Edge.eid)) ++
      mkChain sid g.nextEdgeId g.nextNodeId (pathSrc g path) (pathDst g path)
        (sepCopies g path)) o = g.multOf o
    rw [multOfList_append, multOfList_mkChain]
    have hcopies : (sepCopies g path).countP (fun e => decide (e.origId = o)) =
        (pathReps g path).countP (fun e => decide (2 ≤ e.mult) && decide (e.origId = o)) := by
      unfold sepCopies
      rw [List.countP_filter]
      exact countP_ext (fun x _ => Bool.and_comm _ _)
    have hids : g.edges.countP (fun x =>
        ((pathReps g path).map Edge.eid).contains x.eid &&
          (decide (2 ≤ x.mult) && decide (x.origId = o))) =
        (pathReps g path).countP (fun e => decide (2 ≤ e.mult) && decide (e.origId = o)) :=
      countP_contains_ids hw.1 (pathReps g path) (pathReps_nodup_eids g path)
        (fun r hr => pathReps_find g path r hr) _
    have hstep := multOfList_stepEdge ((pathReps g path).map Edge.eid) o g.edges
    rw [hcopies, ← hids]
    unfold Graph.multOf
    omega
  · have hall2 : (pathReps g path).all (fun e => decide (1 ≤ e.mult)) = false :=
      Bool.eq_false_iff.mpr hall
    rw [separatePath_eq_bad g path seg sid hall2]
    show multOfList (g.edges.map _) o = g.multOf o
    exact multOfList_map_preserve _ (fun e => by split <;> exact ⟨rfl, rfl⟩) o g.edges

theorem wf_separatePath (g : Graph) (hw : g.wf) (path : GraphPath)
    (seg : SequenceSegment) (sid : Nat) :
    ((separatePath g path seg sid).1).wf ∧
    g.nextEdgeId ≤ ((separatePath g path seg sid).1).nextEdgeId := by
  by_cases hall : (pathReps g path).all (fun e => decide (1 ≤ e.mult)) = true
  · rw [separatePath_eq_good g path seg sid hall]
    have hmapeid : ((g.edges.map (stepEdge ((pathReps g path).map Edge.eid))).map Edge.eid) =
        g.edges.map Edge.eid := by
      rw [List.map_map]
      exact List.map_congr_left (fun e _ => stepEdge_eid _ e)
    have hchain := mkChain_eids sid g.nextEdgeId g.nextNodeId (pathSrc g path)
      (pathDst g path) (sepCopies g path)
    constructor
    · constructor
      · show ((g.edges.map (stepEdge ((pathReps g path).map Edge.eid)) ++
          mkChain sid g.nextEdgeId g.nextNodeId (pathSrc g path) (pathDst g path)
            (sepCopies g path)).map Edge.eid).Nodup
        rw [List.map_append, hmapeid, hchain]
        apply List.Nodup.append hw.1 (List.nodup_range' _ _)
        intro a ha hb
        obtain ⟨x, hx, hxa⟩ := List.mem_map.mp ha
        have h1 : a < g.nextEdgeId := hxa ▸ hw.2 x hx
        have h2 : g.nextEdgeId ≤ a := (List.mem_range'_1.mp hb).1
        omega
      · intro e he
        rcases List.mem_append.mp he with he | he
        · obtain ⟨x, hx, hxe⟩ := List.mem_map.mp he
          have h1 : x.eid < g.nextEdgeId := hw.2 x hx
          have h2 : e.eid = x.eid := by rw [← hxe, stepEdge_eid]
          show e.eid < g.nextEdgeId + (sepCopies g path).length
          omega
        · have h3 : e.eid ∈ (mkChain sid g.nextEdgeId g.nextNodeId (pathSrc g path)
            (pathDst g path) (sepCopies g path)).map Edge.eid := List.mem_map_of_mem _ he
          rw [hchain] at h3
          have h4 := List.mem_range'_1.mp h3
          show e.eid < g.nextEdgeId + (sepCopies g path).length
          omega
    · show g.nextEdgeId ≤ g.nextEdgeId + (sepCopies g path).length
      omega
  · have hall2 : (pathReps g path).all (fun e => decide (1 ≤ e.mult)) = false :=
      Bool.eq_false_iff.mpr hall
    rw [separatePath_eq_bad g path seg sid hall2]
    refine ⟨⟨?_, ?_⟩, Nat.le_refl _⟩
    · show ((g.edges.map _).map Edge.eid).Nodup
      rw [List.map_map]
      have : ∀ e ∈ g.edges, (Edge.eid ∘ (fun e : Edge =>
          if ((sepBad g path).map Edge.eid).contains e.eid
          then { e with state := EdgeState.UnresolvedRetained } else e)) e = Edge.eid e := by
        intro e _
        simp only [Function.comp_apply]
        split <;> rfl
      rw [List.map_congr_left this]
      exact hw.1
    · intro e he
      obtain ⟨x, hx, hxe⟩ := List.mem_map.mp he
      have h1 : x.eid < g.nextEdgeId := hw.2 x hx
      have h2 : e.eid = x.eid := by
        rw [← hxe]
        split <;> rfl
      show e.eid < g.nextEdgeId
      omega

theorem origIn_separatePath (g : Graph) (o : Nat) (ho : o < g.nextEdgeId)
    (hinv : ∀ e ∈ g.edges, e.eid = o → e.origId = o) (path : GraphPath)
    (seg : SequenceSegment) (sid : Nat) :
    ∀ e ∈ ((separatePath g path seg sid).1).edges, e.eid = o → e.origId = o := by
  by_cases hall : (pathReps g path).all (fun e => decide (1 ≤ e.mult)) = true
  · rw [separatePath_eq_good g path seg sid hall]
    intro e he heo
    rcases List.mem_append.mp he with he | he
    · obtain ⟨x, hx, hxe⟩ := List.mem_map.mp he
      have h2 : x.eid = o := by rw [← heo, ← hxe, stepEdge_eid]
      have h3 := hinv x hx h2
      rw [← hxe, stepEdge_origId, h3]
    · have h3 : e.eid ∈ (mkChain sid g.nextEdgeId g.nextNodeId (pathSrc g path)
        (pathDst g path) (sepCopies g path)).map Edge.eid := List.mem_map_of_mem _ he
      rw [mkChain_eids] at h3
      have h4 := List.mem_range'_1.mp h3
      omega
  · have hall2 : (pathReps g path).all (fun e => decide (1 ≤ e.mult)) = false :=
      Bool.eq_false_iff.mpr hall
    rw [separatePath_eq_bad g path seg sid hall2]
    intro e he heo
    obtain ⟨x, hx, hxe⟩ := List.mem_map.mp he
    have h2 : x.eid = o := by
      rw [← heo, ← hxe]
      split <;> rfl
    have h3 := hinv x hx h2
    rw [← hxe]
    split <;> (show x.origId = o; exact h3)

theorem applySeps_invariants (steps : List SepCall) :
    ∀ g : Graph, g.wf → ∀ o : Nat, o < g.nextEdgeId →
      (∀ e ∈ g.edges, e.eid = o → e.origId = o) →
      (applySeps steps g).multOf o = g.multOf o ∧
      (applySeps steps g).wf ∧
      o < (applySeps steps g).nextEdgeId ∧
      (∀ e ∈ (applySeps steps g).edges, e.eid = o → e.origId = o) := by
  induction steps with
  | nil => intro g hw o ho hinv; exact ⟨rfl, hw, ho, hinv⟩
  | cons c cs ih =>
      intro g hw o ho hinv
      have hwf := wf_separatePath g hw c.path c.seg c.startId
      have hmult := multOf_separatePath g hw c.path c.seg c.startId o
      have hon : o < ((separatePath g c.path c.seg c.startId).1).nextEdgeId := by omega
      have hinv2 := origIn_separatePath g o ho hinv c.path c.seg c.startId
      obtain ⟨h1, h2, h3, h4⟩ := ih _ hwf.1 o hon hinv2
      refine ⟨?_, h2, h3, h4⟩
      show (applySeps cs (separatePath g c.path c.seg c.startId).1).multOf o = g.multOf o
      rw [h1, hmult]

theorem multOfList_split (o : Nat) :
    ∀ l : List Edge, (∀ e ∈ l, e.eid = o → e.origId = o) →
      multOfList l o =
        ((l.filter (fun e => decide (e.origId = o) && !(e.eid == o))).map Edge.mult).sum +
        ((l.filter (fun e => e.eid == o)).map Edge.mult).sum := by
  intro l
  induction l with
  | nil => intro _; rfl
  | cons e l ih =>
      intro h
      have ihl := ih (fun x hx => h x (List.mem_cons_of_mem _ hx))
      rw [multOfList_cons]
      by_cases heid : e.eid = o
      · have horg : e.origId = o := h e (List.mem_cons_self _ _) heid
        have hf1 : (decide (e.origId = o) && !(e.eid == o)) = false := by
          simp [heid]
        have hf2 : (e.eid == o) = true := by simpa using heid
        rw [List.filter_cons_of_neg (by simp [hf1]),
          @List.filter_cons_of_pos _ (fun e : Edge => e.eid == o) e l hf2]
        simp only [List.map_cons, List.sum_cons]
        rw [if_pos horg]
        omega
      · by_cases horg : e.origId = o
        · have hf1 : (decide (e.origId = o) && !(e.eid == o)) = true := by
            simp [heid, horg]
          have hf2 : ¬(e.eid == o) = true := by simpa using heid
          rw [@List.filter_cons_of_pos _
              (fun e : Edge => decide (e.origId = o) && !(e.eid == o)) e l hf1,
            @List.filter_cons_of_neg _ (fun e : Edge => e.eid == o) e l hf2]
          simp only [List.map_cons, List.sum_cons]
          rw [if_pos horg]
          omega
        · have hf1 : ¬(decide (e.origId = o) && !(e.eid == o)) = true := by
            simp [horg]
          have hf2 : ¬(e.eid == o) = true := by simpa using heid
          rw [@List.filter_cons_of_neg _
              (fun e : Edge => decide (e.origId = o) && !(e.eid == o)) e l hf1,
            @List.filter_cons_of_neg _ (fun e : Edge => e.eid == o) e l hf2]
          rw [if_neg horg]
          omega

theorem multOf_decompose (g : Graph) (o : Nat)
    (h : ∀ e ∈ g.edges, e.eid = o → e.origId = o) :
    g.multOf o = g.descMult o + g.remainingMult o :=
  multOfList_split o g.edges h

theorem multOfList_init (o : Nat) :
    ∀ l : List Edge, (∀ e ∈ l, e.origId = e.eid) →
      multOfList l o = ((l.filter (fun e => e.eid == o)).map Edge.mult).sum := by
  intro l
  induction l with
  | nil => intro _; rfl
  | cons e l ih =>
      intro h
      have ihl := ih (fun x hx => h x (List.mem_cons_of_mem _ hx))
      have he := h e (List.mem_cons_self _ _)
      rw [multOfList_cons, ihl]
      by_cases heid : e.eid = o
      · have hf2 : (e.eid == o) = true := by simpa using heid
        rw [@List.filter_cons_of_pos _ (fun e : Edge => e.eid == o) e l hf2]
        simp only [List.map_cons, List.sum_cons]
        rw [if_pos (he.trans heid)]
      · have hf2 : ¬(e.eid == o) = true := by simpa using heid
        rw [@List.filter_cons_of_neg _ (fun e : Edge => e.eid == o) e l hf2]
        rw [if_neg (fun hc => heid (he.symm.trans hc))]
        omega

/-- C1: multiplicity conservation.  Starting from a well-formed graph whose
edges are their own origins, after any sequence of `separatePath` operations
the summed multiplicity of the separated descendants of an original repeat
edge plus the remaining multiplicity of that edge itself equals the edge's
original multiplicity; in particular the descendant mass never exceeds the
original multiplicity. -/
theorem separation_conserves_multiplicity (g0 : Graph) (o : Nat) (e0 : Edge)
    (hw : g0.wf) (horig : ∀ e ∈ g0.edges, e.origId = e.eid)
    (he : g0.findEdge o = some e0) (steps : List SepCall) :
    (applySeps steps g0).descMult o + (applySeps steps g0).remainingMult o = e0.mult ∧
    (applySeps steps g0).descMult o ≤ e0.mult := by
  have heid : e0.eid = o := findEdge_eid he
  have hmem : e0 ∈ g0.edges := findEdge_mem he
  have ho : o < g0.nextEdgeId := heid ▸ hw.2 e0 hmem
  have hinv : ∀ e ∈ g0.edges, e.eid = o → e.origId = o := by
    intro e hme h2
    rw [horig e hme, h2]
  have hinit : g0.multOf o = e0.mult := by
    unfold Graph.multOf
    rw [multOfList_init o g0.edges horig]
    have hf : g0.edges.filter (fun e => e.eid == o) = [e0] := find?_filter_single hw.1 he
    rw [hf]
    simp
  obtain ⟨h1, h2, h3, h4⟩ := applySeps_invariants steps g0 hw o ho hinv
  have hdec := multOf_decompose (applySeps steps g0) o h4
  constructor
  · rw [← hdec, h1, hinit]
  · rw [← hinit, ← h1, hdec]
    omega

/-- C1 witness: one separation on the concrete witness graph; edge 2 has
original multiplicity 2 and afterwards one separated descendant of
multiplicity 1 plus remaining multiplicity 1. -/
theorem separation_conserves_multiplicity_w :
    (applySeps [⟨[0, 2, 1], ⟨50, 0, 30⟩, 300⟩] gW).descMult 2 +
      (applySeps [⟨[0, 2, 1], ⟨50, 0, 30⟩, 300⟩] gW).remainingMult 2 =
        (⟨2, 1, 2, 5, 2, EdgeState.RepeatPending, 0, 2, 102⟩ : Edge).mult ∧
    (applySeps [⟨[0, 2, 1], ⟨50, 0, 30⟩, 300⟩] gW).descMult 2 ≤
      (⟨2, 1, 2, 5, 2, EdgeState.RepeatPending, 0, 2, 102⟩ : Edge).mult :=
  separation_conserves_multiplicity gW 2 ⟨2, 1, 2, 5, 2, EdgeState.RepeatPending, 0, 2, 102⟩
    (by decide) (by decide) (by decide) [⟨[0, 2, 1], ⟨50, 0, 30⟩, 300⟩]

theorem contains_true_iff {l : List Nat} {a : Nat} : l.contains a = true ↔ a ∈ l :=
  List.elem_iff

theorem find?_map_eid {l : List Edge} {f : Edge → Edge} (hf : ∀ x, (f x).eid = x.eid)
    (i : Nat) :
    (l.map f).find? (fun e => e.eid == i) = (l.find? (fun e => e.eid == i)).map f := by
  induction l with
  | nil => rfl
  | cons a l ih =>
      by_cases ha : (a.eid == i) = true
      · have ha2 : ((f a).eid == i) = true := by rw [hf]; exact ha
        rw [List.map_cons, @List.find?_cons_of_pos _ (fun e => e.eid == i) (f a) _ ha2,
          @List.find?_cons_of_pos _ (fun e => e.eid == i) a l ha]
        rfl
      · have ha2 : ¬((f a).eid == i) = true := by rw [hf]; exact ha
        rw [List.map_cons, @List.find?_cons_of_neg _ (fun e => e.eid == i) (f a) _ ha2,
          @List.find?_cons_of_neg _ (fun e => e.eid == i) a l ha, ih]

theorem pathReps_mem_edges (g : Graph) (path : GraphPath) :
    ∀ r ∈ pathReps g path, r ∈ g.edges :=
  fun r hr => findEdge_mem (pathReps_find g path r hr)

/-- C3: multiplicity-inconsistency handling in `separatePath`.  When some
traversed repeat edge has no unconsumed copy left (the decrement would drive
consumed multiplicity below zero), the separation is not applied at all: a
nonempty diagnostic is reported, no multiplicity mass changes for any origin,
no junction or edge is added or removed, the offending edge is retained with
state `Unresolved-retained`, and every edge that is not an offender is left
untouched in the graph (the failure is localized). -/
theorem separatePath_inconsistency (g : Graph) (path : GraphPath) (seg : SequenceSegment)
    (sid : Nat) (i : Nat) (e : Edge) (hw : g.wf)
    (hi : i ∈ repIdsOf g path) (he : g.findEdge i = some e) (hm : e.mult = 0) :
    (separatePath g path seg sid).2 ≠ [] ∧
    (∀ o, ((separatePath g path seg sid).1).multOf o = g.multOf o) ∧
    ((separatePath g path seg sid).1).nodes = g.nodes ∧
    ((separatePath g path seg sid).1).edges.length = g.edges.length ∧
    ((separatePath g path seg sid).1).findEdge i =
      some { e with state := EdgeState.UnresolvedRetained } ∧
    (∀ x ∈ g.edges, x.mult ≠ 0 → x ∈ ((separatePath g path seg sid).1).edges) := by
  have hmem : e ∈ pathReps g path := List.mem_filterMap.mpr ⟨i, hi, he⟩
  have hbad : e ∈ sepBad g path := List.mem_filter.mpr ⟨hmem, by simp [hm]⟩
  have hall : (pathReps g path).all (fun x => decide (1 ≤ x.mult)) = false := by
    cases hb : (pathReps g path).all (fun x => decide (1 ≤ x.mult)) with
    | false => rfl
    | true =>
        have h2 := List.all_eq_true.mp hb e hmem
        rw [hm] at h2
        simp at h2
  rw [separatePath_eq_bad g path seg sid hall]
  have hf : ∀ x : Edge, ((fun x : Edge =>
      if ((sepBad g path).map Edge.eid).contains x.eid
      then { x with state := EdgeState.UnresolvedRetained } else x) x).eid = x.eid := by
    intro x
    dsimp only
    split <;> rfl
  refine ⟨?_, ?_, rfl, by simp, ?_, ?_⟩
  · exact List.ne_nil_of_mem (List.mem_map_of_mem _ hbad)
  · intro o
    exact multOfList_map_preserve _ (fun x => by split <;> exact ⟨rfl, rfl⟩) o g.edges
  · unfold Graph.findEdge
    show (g.edges.map (fun x : Edge =>
        if ((sepBad g path).map Edge.eid).contains x.eid
        then { x with state := EdgeState.UnresolvedRetained } else x)).find?
        (fun x => x.eid == i) = some { e with state := EdgeState.UnresolvedRetained }
    rw [find?_map_eid hf i,
      show g.edges.find? (fun x => x.eid == i) = some e from he]
    have hcont : ((sepBad g path).map Edge.eid).contains e.eid = true :=
      contains_true_iff.mpr (List.mem_map_of_mem Edge.eid hbad)
    show some (if ((sepBad g path).map Edge.eid).contains e.eid
      then { e with state := EdgeState.UnresolvedRetained } else e) =
      some { e with state := EdgeState.UnresolvedRetained }
    rw [if_pos hcont]
  · intro x hx hxm
    have hfx : (if ((sepBad g path).map Edge.eid).contains x.eid
        then { x with state := EdgeState.UnresolvedRetained } else x) = x := by
      by_cases hc : ((sepBad g path).map Edge.eid).contains x.eid = true
      · exfalso
        obtain ⟨b, hb, hbe⟩ := List.mem_map.mp (contains_true_iff.mp hc)
        have hb2 : b ∈ g.edges := pathReps_mem_edges g path b (List.mem_of_mem_filter hb)
        have hb0 : b.mult = 0 := by simpa using List.of_mem_filter hb
        have hbx : b = x := eq_of_eid_eq hw.1 hb2 hx hbe
        exact hxm (hbx ▸ hb0)
      · rw [if_neg hc]
    have hmm : (if ((sepBad g path).map Edge.eid).contains x.eid
        then { x with state := EdgeState.UnresolvedRetained } else x) ∈
        g.edges.map (fun x : Edge =>
          if ((sepBad g path).map Edge.eid).contains x.eid
          then { x with state := EdgeState.UnresolvedRetained } else x) :=
      List.mem_map_of_mem _ hx
    rw [hfx] at hmm
    exact hmm

/-- C3 witness: concrete inconsistent separation on the variant graph whose
repeat edge 2 has multiplicity 0. -/
theorem separatePath_inconsistency_w :
    (separatePath gzW [0, 2, 1] ⟨50, 0, 30⟩ 300).2 ≠ [] ∧
    (∀ o, ((separatePath gzW [0, 2, 1] ⟨50, 0, 30⟩ 300).1).multOf o = gzW.multOf o) ∧
    ((separatePath gzW [0, 2, 1] ⟨50, 0, 30⟩ 300).1).nodes = gzW.nodes ∧
    ((separatePath gzW [0, 2, 1] ⟨50, 0, 30⟩ 300).1).edges.length = gzW.edges.length ∧
    ((separatePath gzW [0, 2, 1] ⟨50, 0, 30⟩ 300).1).findEdge 2 =
      some { (⟨2, 1, 2, 5, 0, EdgeState.RepeatPending, 0, 2, 102⟩ : Edge) with
        state := EdgeState.UnresolvedRetained } ∧
    (∀ x ∈ gzW.edges, x.mult ≠ 0 →
      x ∈ ((separatePath gzW [0, 2, 1] ⟨50, 0, 30⟩ 300).1).edges) :=
  separatePath_inconsistency gzW [0, 2, 1] ⟨50, 0, 30⟩ 300 2
    ⟨2, 1, 2, 5, 0, EdgeState.RepeatPending, 0, 2, 102⟩
    (by decide) (by decide) (by decide) (by decide)

/-- C9: last-copy reclassification.  When a separation consumes a traversed
repeat edge whose remaining multiplicity is exactly 1 (and the separation is
applicable, i.e. no traversed repeat edge is exhausted), that edge is
reclassified in place as `Unique` with its multiplicity unchanged, no edge of
the graph descends from it other than itself, and the only new edges created
are the `Separated` copies of the repeat edges that still have further
copies — none for the last-copy edge. -/
theorem separatePath_last_copy (g : Graph) (path : GraphPath) (seg : SequenceSegment)
    (sid : Nat) (i : Nat) (e : Edge) (hw : g.wf)
    (horig : ∀ x ∈ g.edges, x.origId = x.eid)
    (he : g.findEdge i = some e) (hi : i ∈ path)
    (hst : e.state = EdgeState.RepeatPending) (hm : e.mult = 1)
    (hgood : ∀ x ∈ pathReps g path, 1 ≤ x.mult) :
    ((separatePath g path seg sid).1).findEdge i =
      some { e with state := EdgeState.Unique } ∧
    (∀ x ∈ ((separatePath g path seg sid).1).edges, x.origId = e.origId → x.eid = i) ∧
    ((separatePath g path seg sid).1).edges.length =
      g.edges.length + (sepCopies g path).length := by
  have hall : (pathReps g path).all (fun x => decide (1 ≤ x.mult)) = true :=
    List.all_eq_true.mpr (fun x hx => by simpa using hgood x hx)
  have hrep : i ∈ repIdsOf g path := by
    unfold repIdsOf
    apply List.mem_filter.mpr
    refine ⟨List.mem_dedup.mpr hi, ?_⟩
    unfold isRepeatEdgeId
    rw [he]
    simp [hst]
  have heo : e.origId = i := by
    rw [horig e (findEdge_mem he), findEdge_eid he]
  rw [separatePath_eq_good g path seg sid hall]
  refine ⟨?_, ?_, ?_⟩
  · unfold Graph.findEdge
    show ((g.edges.map (stepEdge ((pathReps g path).map Edge.eid)) ++
        mkChain sid g.nextEdgeId g.nextNodeId (pathSrc g path) (pathDst g path)
          (sepCopies g path)).find? (fun x => x.eid == i)) =
      some { e with state := EdgeState.Unique }
    rw [List.find?_append, find?_map_eid (fun x => stepEdge_eid _ x) i,
      show g.edges.find? (fun x => x.eid == i) = some e from he]
    have hcont : ((pathReps g path).map Edge.eid).contains e.eid = true := by
      rw [pathReps_eids]
      apply contains_true_iff.mpr
      rw [findEdge_eid he]
      exact hrep
    show some (stepEdge ((pathReps g path).map Edge.eid) e) =
      some { e with state := EdgeState.Unique }
    unfold stepEdge
    rw [if_pos hcont, if_pos hm]
  · intro x hx hxo
    rcases List.mem_append.mp hx with hx | hx
    · obtain ⟨y, hy, hyx⟩ := List.mem_map.mp hx
      have h1 : x.origId = y.eid := by
        rw [← hyx, stepEdge_origId]
        exact horig y hy
      have h2 : x.eid = y.eid := by rw [← hyx, stepEdge_eid]
      rw [h2, ← h1, hxo, heo]
    · exfalso
      obtain ⟨y, hy, hxy⟩ := mkChain_mem_orig sid _ _ _ _ _ x hx
      have hy2 := List.mem_filter.mp hy
      have hy3 : y ∈ g.edges := pathReps_mem_edges g path y hy2.1
      have hy4 : 2 ≤ y.mult := by simpa using hy2.2
      have hy5 : y.eid = i := by
        rw [← horig y hy3, ← hxy, hxo, heo]
      have hy6 : g.findEdge i = some y := by
        rw [← hy5]
        exact pathReps_find g path y hy2.1
      have hy7 : y = e := by
        have := hy6.symm.trans he
        exact Option.some.inj this
      rw [hy7, hm] at hy4
      omega
  · show (g.edges.map _ ++ mkChain sid _ _ _ _ (sepCopies g path)).length = _
    rw [List.length_append, List.length_map, mkChain_length]

/-- C9 witness: on the variant graph whose repeat edge 2 has multiplicity 1,
separating the confirmed path reclassifies edge 2 as `Unique` in place and
creates no chain edge (the copy list is empty). -/
theorem separatePath_last_copy_w :
    ((separatePath gbW [0, 2, 1] ⟨50, 0, 30⟩ 300).1).findEdge 2 =
      some { (⟨2, 1, 2, 5, 1, EdgeState.RepeatPending, 0, 2, 102⟩ : Edge) with
        state := EdgeState.Unique } ∧
    (∀ x ∈ ((separatePath gbW [0, 2, 1] ⟨50, 0, 30⟩ 300).1).edges,
      x.origId = (⟨2, 1, 2, 5, 1, EdgeState.RepeatPending, 0, 2, 102⟩ : Edge).origId →
        x.eid = 2) ∧
    ((separatePath gbW [0, 2, 1] ⟨50, 0, 30⟩ 300).1).edges.length =
      gbW.edges.length + (sepCopies gbW [0, 2, 1]).length :=
  separatePath_last_copy gbW [0, 2, 1] ⟨50, 0, 30⟩ 300 2
    ⟨2, 1, 2, 5, 1, EdgeState.RepeatPending, 0, 2, 102⟩
    (by decide) (by decide) (by decide) (by decide) rfl rfl (by decide)

theorem countP_incident_map {l : List Edge} {f : Edge → Edge}
    (hf : ∀ x, (f x).src = x.src ∧ (f x).dst = x.dst) (v : Nat) :
    (l.map f).countP (incident v) = l.countP (incident v) := by
  rw [List.countP_map]
  apply countP_ext
  intro x _
  simp only [Function.comp_apply]
  unfold incident
  rw [(hf x).1, (hf x).2]

theorem deg_setEdgeState (g : Graph) (i : Nat) (s : EdgeState) (v : Nat) :
    (setEdgeState g i s).deg v = g.deg v := by
  unfold setEdgeState Graph.deg
  refine countP_incident_map (fun x => ⟨?_, ?_⟩) v
  · show (if x.eid == i then { x with state := s } else x).src = x.src
    split <;> rfl
  · show (if x.eid == i then { x with state := s } else x).dst = x.dst
    split <;> rfl

theorem wf_setEdgeState (g : Graph) (i : Nat) (s : EdgeState) (hw : g.wf) :
    (setEdgeState g i s).wf := by
  constructor
  · show ((g.edges.map (fun e => if e.eid == i then { e with state := s } else e)).map
      Edge.eid).Nodup
    rw [List.map_map]
    have hcongr : ∀ e ∈ g.edges, (Edge.eid ∘ (fun e : Edge =>
        if e.eid == i then { e with state := s } else e)) e = Edge.eid e := by
      intro e _
      show (if e.eid == i then { e with state := s } else e).eid = e.eid
      split <;> rfl
    rw [List.map_congr_left hcongr]
    exact hw.1
  · intro e he
    obtain ⟨x, hx, hxe⟩ := List.mem_map.mp he
    have heq : e.eid = x.eid := by
      rw [← hxe]
      show (if x.eid == i then { x with state := s } else x).eid = x.eid
      split <;> rfl
    show e.eid < g.nextEdgeId
    rw [heq]
    exact hw.2 x hx

theorem wf_eraseEdge (g : Graph) (i : Nat) (hw : g.wf) : (eraseEdge g i).wf := by
  constructor
  · show ((g.edges.filter (fun e => e.eid != i)).map Edge.eid).Nodup
    exact List.Nodup.sublist (List.Sublist.map Edge.eid (List.filter_sublist _)) hw.1
  · intro e he
    exact hw.2 e (List.mem_of_mem_filter he)

theorem deg_eraseEdge_of_not_incident (g : Graph) (hw : g.wf) {i : Nat} {e : Edge}
    (he : g.findEdge i = some e) {v : Nat} (hsrc : ¬e.src = v) (hdst : ¬e.dst = v) :
    (eraseEdge g i).deg v = g.deg v := by
  unfold eraseEdge Graph.deg
  show (g.edges.filter (fun x => x.eid != i)).countP (incident v) =
    g.edges.countP (incident v)
  rw [List.countP_filter]
  apply countP_ext
  intro x hx
  by_cases hxi : x.eid = i
  · have hxe : x = e :=
      eq_of_eid_eq hw.1 hx (findEdge_mem he) (by rw [hxi, findEdge_eid he])
    have hinc : incident v x = false := by
      unfold incident
      subst hxe
      simp [hsrc, hdst]
    rw [hinc]
    rfl
  · have hne : (x.eid != i) = true := by simpa using hxi
    rw [hne, Bool.and_true]

theorem safeRemoval_spec {g : Graph} {i : Nat} {e : Edge} (he : g.findEdge i = some e)
    (hs : safeRemoval g i = true) :
    0 < (eraseEdge g i).deg e.src ∧ 0 < (eraseEdge g i).deg e.dst := by
  unfold safeRemoval at hs
  rw [he] at hs
  have h2 := (Bool.and_eq_true _ _).mp hs
  exact ⟨of_decide_eq_true h2.1, of_decide_eq_true h2.2⟩

theorem pruneEdges_deg (ids : List Nat) : ∀ g : Graph, g.wf →
    ∀ v, 0 < g.deg v → 0 < (pruneEdges g ids).1.deg v := by
  induction ids with
  | nil => intro g _ v hv; exact hv
  | cons i rest ih =>
      intro g hw v hv
      by_cases hs : safeRemoval g i = true
      · cases hfe : g.findEdge i with
        | none =>
            exfalso
            unfold safeRemoval at hs
            rw [hfe] at hs
            simp at hs
        | some e =>
            have hspec := safeRemoval_spec hfe hs
            have hv2 : 0 < (eraseEdge g i).deg v := by
              by_cases hsrc : e.src = v
              · exact hsrc ▸ hspec.1
              · by_cases hdst : e.dst = v
                · exact hdst ▸ hspec.2
                · rw [deg_eraseEdge_of_not_incident g hw hfe hsrc hdst]
                  exact hv
            have hres := ih (eraseEdge g i) (wf_eraseEdge g i hw) v hv2
            show 0 < (pruneEdges g (i :: rest)).1.deg v
            unfold pruneEdges
            rw [if_pos hs]
            exact hres
      · have hres := ih (setEdgeState g i EdgeState.UnresolvedRetained)
          (wf_setEdgeState g i EdgeState.UnresolvedRetained hw) v
          (by rw [deg_setEdgeState]; exact hv)
        show 0 < (pruneEdges g (i :: rest)).1.deg v
        unfold pruneEdges
        rw [if_neg hs]
        exact hres

theorem deg_separatePath_le (g : Graph) (path : GraphPath) (seg : SequenceSegment)
    (sid : Nat) (v : Nat) :
    g.deg v ≤ ((separatePath g path seg sid).1).deg v := by
  by_cases hall : (pathReps g path).all (fun e => decide (1 ≤ e.mult)) = true
  · rw [separatePath_eq_good g path seg sid hall]
    show g.deg v ≤ (g.edges.map (stepEdge ((pathReps g path).map Edge.eid)) ++
      mkChain sid g.nextEdgeId g.nextNodeId (pathSrc g path) (pathDst g path)
        (sepCopies g path)).countP (incident v)
    rw [List.countP_append]
    have hmap : (g.edges.map (stepEdge ((pathReps g path).map Edge.eid))).countP
        (incident v) = g.deg v :=
      countP_incident_map (fun x => ⟨stepEdge_src _ x, stepEdge_dst _ x⟩) v
    omega
  · have hall2 : (pathReps g path).all (fun e => decide (1 ≤ e.mult)) = false :=
      Bool.eq_false_iff.mpr hall
    rw [separatePath_eq_bad g path seg sid hall2]
    show g.deg v ≤ (g.edges.map (fun x : Edge =>
      if ((sepBad g path).map Edge.eid).contains x.eid
      then { x with state := EdgeState.UnresolvedRetained } else x)).countP (incident v)
    have hpres : ∀ x : Edge, ((fun x : Edge =>
        if ((sepBad g path).map Edge.eid).contains x.eid
        then { x with state := EdgeState.UnresolvedRetained } else x) x).src = x.src ∧
        ((fun x : Edge =>
        if ((sepBad g path).map Edge.eid).contains x.eid
        then { x with state := EdgeState.UnresolvedRetained } else x) x).dst = x.dst := by
      intro x
      constructor
      · show (if ((sepBad g path).map Edge.eid).contains x.eid
          then { x with state := EdgeState.UnresolvedRetained } else x).src = x.src
        split <;> rfl
      · show (if ((sepBad g path).map Edge.eid).contains x.eid
          then { x with state := EdgeState.UnresolvedRetained } else x).dst = x.dst
        split <;> rfl
    rw [countP_incident_map hpres v]
    exact Nat.le_refl (g.deg v)

/-- C4: connectivity preservation.  On a well-formed graph, neither the
pruning pass (`removeUnsupportedEdges`) nor a separation (`separatePath`)
ever drops a junction of positive degree to degree zero; moreover whenever
the removal of a candidate edge is unsafe, the pruning step refuses the
deletion and instead retains the edge tagged `Unresolved-retained`. -/
theorem connectivity_preservation (mi : MultiplicityInferer) (g : Graph) (v : Nat)
    (hw : g.wf) (hv : 0 < g.deg v) :
    0 < ((removeUnsupportedEdges mi g).1).deg v ∧
    (∀ path seg sid, 0 < ((separatePath g path seg sid).1).deg v) ∧
    (∀ h : Graph, ∀ i : Nat, ∀ e : Edge, ∀ rest : List Nat,
      h.findEdge i = some e → safeRemoval h i = false →
      pruneEdges h (i :: rest) =
        pruneEdges (setEdgeState h i EdgeState.UnresolvedRetained) rest ∧
      (setEdgeState h i EdgeState.UnresolvedRetained).findEdge i =
        some { e with state := EdgeState.UnresolvedRetained }) := by
  refine ⟨?_, ?_, ?_⟩
  · unfold removeUnsupportedEdges
    exact pruneEdges_deg _ g hw v hv
  · intro path seg sid
    have := deg_separatePath_le g path seg sid v
    omega
  · intro h i e rest hfe hsf
    constructor
    · show (if safeRemoval h i then
          ((pruneEdges (eraseEdge h i) rest).1, (pruneEdges (eraseEdge h i) rest).2 + 1)
        else pruneEdges (setEdgeState h i EdgeState.UnresolvedRetained) rest) =
        pruneEdges (setEdgeState h i EdgeState.UnresolvedRetained) rest
      rw [if_neg (by simp [hsf])]
    · unfold setEdgeState Graph.findEdge
      show (h.edges.map (fun e => if e.eid == i then
          { e with state := EdgeState.UnresolvedRetained } else e)).find?
        (fun x => x.eid == i) = some { e with state := EdgeState.UnresolvedRetained }
      have hfpres : ∀ x : Edge, ((fun e : Edge => if e.eid == i then
          { e with state := EdgeState.UnresolvedRetained } else e) x).eid = x.eid := by
        intro x
        show (if x.eid == i then
          { x with state := EdgeState.UnresolvedRetained } else x).eid = x.eid
        split <;> rfl
      rw [find?_map_eid hfpres i,
        show h.edges.find? (fun x => x.eid == i) = some e from hfe]
      have hcond : (e.eid == i) = true := by simpa using findEdge_eid hfe
      show some (if e.eid == i then { e with state := EdgeState.UnresolvedRetained }
        else e) = some { e with state := EdgeState.UnresolvedRetained }
      rw [if_pos hcond]

/-- C4 witness: on the concrete witness graph, junction 1 keeps positive
degree through the pruning pass and through a concrete separation. -/
theorem connectivity_preservation_w :
    0 < ((removeUnsupportedEdges miW gW).1).deg 1 ∧
    0 < ((separatePath gW [0, 2, 1] ⟨50, 0, 30⟩ 300).1).deg 1 :=
  ⟨(connectivity_preservation miW gW 1 (by decide) (by decide)).1,
   (connectivity_preservation miW gW 1 (by decide) (by decide)).2.1 [0, 2, 1]
     ⟨50, 0, 30⟩ 300⟩


/-- C7: connection validity.  Every connection extracted by `getConnections`
has a path that starts and ends on two distinct `Unique` edges with a
nonempty block of `Repeat-pending` edges in between, and its read segment
fully covers the path's length.  The extraction distributes over batches of
alignments (each read contributes its own connection, in discovery order, no
deduplication at extraction), ambiguous alignments (not exactly one candidate
path) yield no connection, and partially spanning alignments yield no
connection. -/
theorem getConnections_validity (g : Graph) (al : ReadAligner) :
    (∀ c ∈ getConnections g al, ∃ a b : Nat,
      c.path.head? = some a ∧ c.path.getLast? = some b ∧
      isUniqueEdgeId g a = true ∧ isUniqueEdgeId g b = true ∧ a ≠ b ∧
      (c.path.drop 1).dropLast ≠ [] ∧
      (∀ j ∈ (c.path.drop 1).dropLast, isRepeatEdgeId g j = true) ∧
      pathLen g c.path ≤ c.readSequence.right - c.readSequence.left) ∧
    (∀ al1 al2 : ReadAligner,
      getConnections g (al1 ++ al2) = getConnections g al1 ++ getConnections g al2) ∧
    (∀ a : GraphAlignment, (∀ p, a.candidatePaths ≠ [p]) → getConnections g [a] = []) ∧
    (∀ (a : GraphAlignment) (p : GraphPath), a.candidatePaths = [p] →
      fullySpans g a p = false → getConnections g [a] = []) := by
  refine ⟨?_, ?_, ?_, ?_⟩
  · intro c hc
    obtain ⟨a, ha, hfa⟩ := List.mem_filterMap.mp hc
    rcases hcp : a.candidatePaths with _ | ⟨p, ps⟩
    · rw [hcp] at hfa
      exact absurd hfa (by simp)
    rcases ps with _ | ⟨q, qs⟩
    · rw [hcp] at hfa
      replace hfa : (if (spanningPath g p && fullySpans g a p) = true
          then some (⟨p, ⟨a.readId, a.spanStart, a.spanEnd⟩⟩ : Connection)
          else none) = some c := hfa
      by_cases hcond : (spanningPath g p && fullySpans g a p) = true
      · rw [if_pos hcond] at hfa
        have hc2 : (⟨p, ⟨a.readId, a.spanStart, a.spanEnd⟩⟩ : Connection) = c :=
          Option.some.inj hfa
        obtain ⟨hspan, hfull⟩ := (Bool.and_eq_true _ _).mp hcond
        unfold spanningPath at hspan
        rcases hh : p.head? with _ | a0
        · rw [hh] at hspan
          simp at hspan
        rcases hl : p.getLast? with _ | b0
        · rw [hh, hl] at hspan
          simp at hspan
        rw [hh, hl] at hspan
        simp only [Bool.and_eq_true] at hspan
        obtain ⟨⟨⟨⟨hu1, hu2⟩, hne⟩, hmid⟩, hall⟩ := hspan
        have hpath : c.path = p := by rw [← hc2]
        have hseg : c.readSequence = ⟨a.readId, a.spanStart, a.spanEnd⟩ := by rw [← hc2]
        refine ⟨a0, b0, ?_, ?_, hu1, hu2, of_decide_eq_true hne, ?_, ?_, ?_⟩
        · rw [hpath]; exact hh
        · rw [hpath]; exact hl
        · rw [hpath]
          intro hnil
          rw [hnil] at hmid
          simp at hmid
        · rw [hpath]
          exact fun j hj => List.all_eq_true.mp hall j hj
        · unfold fullySpans at hfull
          rw [hpath, hseg]
          exact of_decide_eq_true hfull
      · rw [if_neg hcond] at hfa
        exact absurd hfa (by simp)
    · rw [hcp] at hfa
      exact absurd hfa (by simp)
  · intro al1 al2
    unfold getConnections
    exact List.filterMap_append _ _ _
  · intro a h
    unfold getConnections
    rcases hcp : a.candidatePaths with _ | ⟨p, ps⟩
    · simp [List.filterMap_cons, hcp]
    rcases ps with _ | ⟨q, qs⟩
    · exact absurd hcp (h p)
    · simp [List.filterMap_cons, hcp]
  · intro a p hcp hfull
    unfold getConnections
    simp [List.filterMap_cons, hcp, hfull]

/-- C7 witness: on the concrete witness graph and aligner, the first read
yields a connection and the theorem's validity properties hold for it. -/
theorem getConnections_validity_w :
    caW ∈ getConnections gW alW ∧ (∃ a b : Nat,
      caW.path.head? = some a ∧ caW.path.getLast? = some b ∧
      isUniqueEdgeId gW a = true ∧ isUniqueEdgeId gW b = true ∧ a ≠ b ∧
      (caW.path.drop 1).dropLast ≠ [] ∧
      (∀ j ∈ (caW.path.drop 1).dropLast, isRepeatEdgeId gW j = true) ∧
      pathLen gW caW.path ≤ caW.readSequence.right - caW.readSequence.left) :=
  ⟨by decide, (getConnections_validity gW alW).1 caW (by decide)⟩

/-- C8: the resolution driver is an explicit bounded loop.  For every input
graph and every iteration budget there is an iteration count `k` within the
budget such that the driver's final graph is exactly the `k`-fold iterate of
the single-iteration body, and the loop stopped either because the budget was
exhausted or because the last performed iteration converged (zero accepted
separations and zero removals); `resolveRepeats` itself is this loop run
under the configured iteration cap, returning only the final graph state and
the collected diagnostics. -/
theorem resolveRepeats_bounded_loop (mi : MultiplicityInferer) (al : ReadAligner)
    (cap : Nat) (g : Graph) :
    (∃ k, k ≤ cap ∧ (resolveRepeatsAux mi al cap g).1 = iterGraph mi al k g ∧
      (k = cap ∨ (0 < k ∧ convergedAt mi al (iterGraph mi al (k - 1) g)))) ∧
    resolveRepeats mi al g = resolveRepeatsAux mi al iterationCap g := by
  refine ⟨?_, rfl⟩
  induction cap generalizing g with
  | zero => exact ⟨0, Nat.le_refl 0, rfl, Or.inl rfl⟩
  | succ n ih =>
      by_cases hc : (oneIteration mi al g).accepted = 0 ∧ (oneIteration mi al g).removed = 0
      · refine ⟨1, by omega, ?_, Or.inr ⟨by omega, hc⟩⟩
        show (resolveRepeatsAux mi al (Nat.succ n) g).1 = (oneIteration mi al g).graph
        unfold resolveRepeatsAux
        rw [if_pos hc]
      · obtain ⟨k, hk, heq, hconv⟩ := ih (oneIteration mi al g).graph
        refine ⟨k + 1, by omega, ?_, ?_⟩
        · show (resolveRepeatsAux mi al (Nat.succ n) g).1 =
            iterGraph mi al (k + 1) g
          unfold resolveRepeatsAux
          rw [if_neg hc]
          exact heq
        · rcases hconv with hcap | ⟨hpos, hcv⟩
          · exact Or.inl (by omega)
          · refine Or.inr ⟨by omega, ?_⟩
            have hshift : iterGraph mi al (k + 1 - 1) g =
                iterGraph mi al (k - 1) (oneIteration mi al g).graph := by
              have hk1 : k + 1 - 1 = (k - 1) + 1 := by omega
              rw [hk1]
              rfl
            rw [hshift]
            exact hcv

theorem greedyAccept_cons (conns : List Connection) (g : Graph) (x : ScoredPath)
    (l : List ScoredPath) :
    greedyAccept conns g (x :: l) =
      if hasBudget g x.path then
        ⟨(greedyAccept conns (separatePath g x.path (representativeSeg conns x.path)
            g.nextSeqId).1 l).graph,
         x :: (greedyAccept conns (separatePath g x.path (representativeSeg conns x.path)
            g.nextSeqId).1 l).accepted,
         (separatePath g x.path (representativeSeg conns x.path) g.nextSeqId).2 ++
           (greedyAccept conns (separatePath g x.path (representativeSeg conns x.path)
             g.nextSeqId).1 l).diags⟩
      else greedyAccept conns g l := rfl

theorem greedyAccept_sublist (conns : List Connection) :
    ∀ (l : List ScoredPath) (g : Graph),
      (greedyAccept conns g l).accepted.Sublist l := by
  intro l
  induction l with
  | nil => intro g; exact List.Sublist.refl []
  | cons x rest ih =>
      intro g
      rw [greedyAccept_cons]
      by_cases hb : hasBudget g x.path = true
      · rw [if_pos hb]
        exact List.Sublist.cons₂ x (ih _)
      · rw [if_neg hb]
        exact List.Sublist.cons x (ih g)

theorem greedyAccept_graph_eq (conns : List Connection) :
    ∀ (l : List ScoredPath) (g : Graph),
      (greedyAccept conns g l).graph =
        applyAccepted conns g (greedyAccept conns g l).accepted := by
  intro l
  induction l with
  | nil => intro g; rfl
  | cons x rest ih =>
      intro g
      rw [greedyAccept_cons]
      by_cases hb : hasBudget g x.path = true
      · rw [if_pos hb]
        exact ih _
      · rw [if_neg hb]
        exact ih g

theorem insertScored_perm (cnt : GraphPath → Nat) (x : ScoredPath) :
    ∀ l : List ScoredPath, (insertScored cnt x l).Perm (x :: l) := by
  intro l
  induction l with
  | nil => exact List.Perm.refl _
  | cons y rest ih =>
      unfold insertScored
      by_cases hc : cnt x.path < cnt y.path
      · rw [if_pos hc]
        exact (ih.cons y).trans (List.Perm.swap x y rest)
      · rw [if_neg hc]

theorem sortScored_perm (cnt : GraphPath → Nat) :
    ∀ l : List ScoredPath, (sortScored cnt l).Perm l := by
  intro l
  induction l with
  | nil => exact List.Perm.refl _
  | cons x rest ih =>
      unfold sortScored
      exact (insertScored_perm cnt x (sortScored cnt rest)).trans (ih.cons x)

theorem withIdx_idx_ge : ∀ (l : List GraphPath) (n : Nat) (y : ScoredPath),
    y ∈ withIdx n l → n ≤ y.idx := by
  intro l
  induction l with
  | nil => intro n y h; simp [withIdx] at h
  | cons p ps ih =>
      intro n y h
      rcases List.mem_cons.mp h with h | h
      · rw [h]
      · have := ih (n + 1) y h
        omega

theorem withIdx_pairwise : ∀ (l : List GraphPath) (n : Nat),
    (withIdx n l).Pairwise (fun x y => x.idx < y.idx) := by
  intro l
  induction l with
  | nil => intro n; exact List.Pairwise.nil
  | cons p ps ih =>
      intro n
      apply List.Pairwise.cons
      · intro y hy
        have := withIdx_idx_ge ps (n + 1) y hy
        show n < y.idx
        omega
      · exact ih (n + 1)

theorem withIdx_mem_path : ∀ (l : List GraphPath) (n : Nat) (x : ScoredPath),
    x ∈ withIdx n l → x.path ∈ l := by
  intro l
  induction l with
  | nil => intro n x h; simp [withIdx] at h
  | cons p ps ih =>
      intro n x h
      rcases List.mem_cons.mp h with h | h
      · rw [h]
        exact List.mem_cons_self _ _
      · exact List.mem_cons_of_mem _ (ih (n + 1) x h)

theorem insertScored_pairwise (cnt : GraphPath → Nat) (x : ScoredPath) :
    ∀ l : List ScoredPath,
      l.Pairwise (fun u v => cnt v.path < cnt u.path ∨
        (cnt u.path = cnt v.path ∧ u.idx < v.idx)) →
      (∀ y ∈ l, x.idx < y.idx) →
      (insertScored cnt x l).Pairwise (fun u v => cnt v.path < cnt u.path ∨
        (cnt u.path = cnt v.path ∧ u.idx < v.idx)) := by
  intro l
  induction l with
  | nil => intro _ _; exact List.pairwise_singleton _ _
  | cons y rest ih =>
      intro hp hidx
      rw [List.pairwise_cons] at hp
      unfold insertScored
      by_cases hc : cnt x.path < cnt y.path
      · rw [if_pos hc]
        apply List.pairwise_cons.mpr
        constructor
        · intro z hz
          rcases List.mem_cons.mp ((insertScored_perm cnt x rest).mem_iff.mp hz)
            with hz2 | hz2
          · rw [hz2]
            exact Or.inl hc
          · exact hp.1 z hz2
        · exact ih hp.2 (fun z hz => hidx z (List.mem_cons_of_mem _ hz))
      · rw [if_neg hc]
        apply List.pairwise_cons.mpr
        constructor
        · intro z hz
          rcases List.mem_cons.mp hz with hz2 | hz2
          · subst hz2
            by_cases heq : cnt z.path < cnt x.path
            · exact Or.inl heq
            · refine Or.inr ⟨by omega, hidx z (List.mem_cons_self _ _)⟩
          · rcases hp.1 z hz2 with hrel | hrel
            · by_cases heq : cnt z.path < cnt x.path
              · exact Or.inl heq
              · exact Or.inl (by omega)
            · by_cases heq : cnt z.path < cnt x.path
              · exact Or.inl heq
              · refine Or.inr ⟨by omega, hidx z (List.mem_cons_of_mem _ hz2)⟩
        · exact List.pairwise_cons.mpr hp

theorem sortScored_pairwise (cnt : GraphPath → Nat) :
    ∀ l : List ScoredPath, l.Pairwise (fun u v => u.idx < v.idx) →
      (sortScored cnt l).Pairwise (fun u v => cnt v.path < cnt u.path ∨
        (cnt u.path = cnt v.path ∧ u.idx < v.idx)) := by
  intro l
  induction l with
  | nil => intro _; exact List.Pairwise.nil
  | cons x rest ih =>
      intro hp
      rw [List.pairwise_cons] at hp
      unfold sortScored
      apply insertScored_pairwise cnt x (sortScored cnt rest) (ih hp.2)
      intro y hy
      exact hp.1 y ((sortScored_perm cnt rest).mem_iff.mp hy)

theorem withIdx_nodup (l : List GraphPath) (n : Nat) : (withIdx n l).Nodup := by
  have hpw := withIdx_pairwise l n
  exact hpw.imp (fun h => by
    intro heq
    rw [heq] at h
    omega)

theorem sortedCandidates_nodup (mi : MultiplicityInferer) (g : Graph)
    (conns : List Connection) : (sortedCandidates mi g conns).Nodup := by
  unfold sortedCandidates
  exact ((sortScored_perm (supportOf conns)
      (withIdx 0 (acceptablePaths mi g conns))).symm).nodup
    (withIdx_nodup (acceptablePaths mi g conns) 0)

theorem greedyAccept_mem_prefix (conns : List Connection) :
    ∀ (s1 : List ScoredPath) (x : ScoredPath) (s2 : List ScoredPath) (g : Graph),
      (s1 ++ x :: s2).Nodup →
      (x ∈ (greedyAccept conns g (s1 ++ x :: s2)).accepted ↔
        hasBudget (greedyAccept conns g s1).graph x.path = true) := by
  intro s1
  induction s1 with
  | nil =>
      intro x s2 g hnd
      show x ∈ (greedyAccept conns g (x :: s2)).accepted ↔ hasBudget g x.path = true
      rw [greedyAccept_cons]
      by_cases hb : hasBudget g x.path = true
      · rw [if_pos hb]
        simp only [hb, iff_true]
        exact List.mem_cons_self _ _
      · rw [if_neg hb]
        simp only [hb]
        constructor
        · intro hmem
          exfalso
          have hsub := greedyAccept_sublist conns s2 g
          have hx2 : x ∈ s2 := hsub.mem hmem
          have := (List.nodup_cons.mp hnd).1
          exact this hx2
        · intro hfalse
          exact absurd hfalse Bool.false_ne_true
  | cons y rest ih =>
      intro x s2 g hnd
      have hnd2 : (rest ++ x :: s2).Nodup := (List.nodup_cons.mp hnd).2
      have hyx : x ≠ y := by
        intro heq
        have hy := (List.nodup_cons.mp hnd).1
        apply hy
        rw [← heq]
        exact List.mem_append_right rest (List.mem_cons_self _ _)
      show x ∈ (greedyAccept conns g (y :: (rest ++ x :: s2))).accepted ↔ _
      rw [greedyAccept_cons]
      by_cases hb : hasBudget g y.path = true
      · rw [if_pos hb]
        have hgg : (greedyAccept conns g (y :: rest)).graph =
            (greedyAccept conns (separatePath g y.path (representativeSeg conns y.path)
              g.nextSeqId).1 rest).graph := by
          rw [greedyAccept_cons, if_pos hb]
        rw [hgg]
        have hih := ih x s2 (separatePath g y.path (representativeSeg conns y.path)
          g.nextSeqId).1 hnd2
        constructor
        · intro hmem
          rcases List.mem_cons.mp hmem with heq | hmem2
          · exact absurd heq hyx
          · exact hih.mp hmem2
        · intro hbud
          exact List.mem_cons_of_mem y (hih.mpr hbud)
      · rw [if_neg hb]
        have hgg : (greedyAccept conns g (y :: rest)).graph =
            (greedyAccept conns g rest).graph := by
          rw [greedyAccept_cons, if_neg hb]
        rw [hgg]
        exact ih x s2 g hnd2

/-- C2: conflict resolution in `resolveConnections`.  The returned count is
the number of accepted paths; the resulting graph is exactly the fold of the
`separatePath` rewrite over the accepted paths (each rewrite performed
before returning); the accepted paths form a subsequence of the sorted
candidate list; every sorted candidate meets its estimator-supplied support
threshold; the candidate list is ordered by strictly descending support with
ties broken by earlier discovery rank; and a candidate is accepted exactly
when, at its turn in the greedy pass (after the rewrites of the candidates
sorted before it), its repeat edges still have multiplicity budget —
otherwise it is left unresolved. -/
theorem resolveConnections_spec (mi : MultiplicityInferer) (g : Graph)
    (conns : List Connection) :
    (resolveConnections mi g conns).2.1 =
      (greedyAccept conns g (sortedCandidates mi g conns)).accepted.length ∧
    (resolveConnections mi g conns).1 =
      applyAccepted conns g (greedyAccept conns g (sortedCandidates mi g conns)).accepted ∧
    (greedyAccept conns g (sortedCandidates mi g conns)).accepted.Sublist
      (sortedCandidates mi g conns) ∧
    (∀ x ∈ sortedCandidates mi g conns,
      pathThreshold mi g x.path ≤ supportOf conns x.path) ∧
    (sortedCandidates mi g conns).Pairwise (fun u v =>
      supportOf conns v.path < supportOf conns u.path ∨
      (supportOf conns u.path = supportOf conns v.path ∧ u.idx < v.idx)) ∧
    (∀ (s1 : List ScoredPath) (x : ScoredPath) (s2 : List ScoredPath),
      sortedCandidates mi g conns = s1 ++ x :: s2 →
      (x ∈ (greedyAccept conns g (sortedCandidates mi g conns)).accepted ↔
        hasBudget (greedyAccept conns g s1).graph x.path = true)) := by
  refine ⟨rfl, ?_, ?_, ?_, ?_, ?_⟩
  · exact greedyAccept_graph_eq conns (sortedCandidates mi g conns) g
  · exact greedyAccept_sublist conns (sortedCandidates mi g conns) g
  · intro x hx
    have hx2 : x ∈ withIdx 0 (acceptablePaths mi g conns) :=
      ((sortScored_perm (supportOf conns) _).mem_iff).mp hx
    have hp := withIdx_mem_path _ 0 x hx2
    unfold acceptablePaths at hp
    exact of_decide_eq_true (List.mem_filter.mp hp).2
  · exact sortScored_pairwise (supportOf conns) _
      (withIdx_pairwise (acceptablePaths mi g conns) 0)
  · intro s1 x s2 heq
    have hnd : (s1 ++ x :: s2).Nodup := heq ▸ sortedCandidates_nodup mi g conns
    rw [heq]
    exact greedyAccept_mem_prefix conns s1 x s2 g hnd

/-- C2 witness: on the concrete inputs the returned count equals the number
of accepted paths, and the single sorted candidate is accepted precisely
because it has multiplicity budget at its turn. -/
theorem resolveConnections_spec_w :
    (resolveConnections miW gW (getConnections gW alW)).2.1 =
      (greedyAccept (getConnections gW alW) gW
        (sortedCandidates miW gW (getConnections gW alW))).accepted.length ∧
    ((⟨0, [0, 2, 1]⟩ : ScoredPath) ∈ (greedyAccept (getConnections gW alW) gW
        (sortedCandidates miW gW (getConnections gW alW))).accepted ↔
      hasBudget (greedyAccept (getConnections gW alW) gW []).graph [0, 2, 1] = true) :=
  ⟨(resolveConnections_spec miW gW (getConnections gW alW)).1,
   (resolveConnections_spec miW gW (getConnections gW alW)).2.2.2.2.2 []
     ⟨0, [0, 2, 1]⟩ [] (by decide)⟩

theorem supportOf_perm {c1 c2 : List Connection} (h : c1.Perm c2) :
    supportOf c1 = supportOf c2 := by
  funext p
  unfold supportOf
  exact h.countP_eq _

/-- C6: deterministic acceptance.  The accepted-path list (set and order) and
the whole result of `resolveConnections` are a function of the initial graph
state, the multiset of connections and the discovery order of their distinct
paths: two connection batches that are permutations of each other and agree
on the discovery order of distinct paths produce identical accepted paths in
identical order, identical final graphs, counts and diagnostics.  In
particular two runs on literally identical connection lists and the same
initial graph agree. -/
theorem resolveConnections_deterministic (mi : MultiplicityInferer) (g : Graph)
    (c1 c2 : List Connection) (hperm : c1.Perm c2)
    (hdisc : firstOccs (c1.map Connection.path) = firstOccs (c2.map Connection.path)) :
    (greedyAccept c1 g (sortedCandidates mi g c1)).accepted =
      (greedyAccept c2 g (sortedCandidates mi g c2)).accepted ∧
    resolveConnections mi g c1 = resolveConnections mi g c2 := by
  have hsup : supportOf c1 = supportOf c2 := supportOf_perm hperm
  have hacc : acceptablePaths mi g c1 = acceptablePaths mi g c2 := by
    unfold acceptablePaths
    rw [hdisc, hsup]
  have hsort : sortedCandidates mi g c1 = sortedCandidates mi g c2 := by
    unfold sortedCandidates
    rw [hacc, hsup]
  have hgreedy : ∀ (l : List ScoredPath) (h : Graph),
      greedyAccept c1 h l = greedyAccept c2 h l := by
    intro l
    induction l with
    | nil => intro h; rfl
    | cons x rest ih =>
        intro h
        rw [greedyAccept_cons, greedyAccept_cons]
        by_cases hb : hasBudget h x.path = true
        · rw [if_pos hb, if_pos hb]
          have hsep : separatePath h x.path (representativeSeg c1 x.path) h.nextSeqId =
              separatePath h x.path (representativeSeg c2 x.path) h.nextSeqId := rfl
          rw [hsep, ih]
        · rw [if_neg hb, if_neg hb, ih]
  constructor
  · rw [hsort, hgreedy]
  · unfold resolveConnections
    rw [hsort, hgreedy]

/-- C6 witness: two concrete connection batches that are permutations of each
other with the same discovery order of distinct paths yield the same accepted
paths and the same full result. -/
theorem resolveConnections_deterministic_w :
    (greedyAccept [caW, cbW, caW] gW
        (sortedCandidates miW gW [caW, cbW, caW])).accepted =
      (greedyAccept [caW, caW, cbW] gW
        (sortedCandidates miW gW [caW, caW, cbW])).accepted ∧
    resolveConnections miW gW [caW, cbW, caW] =
      resolveConnections miW gW [caW, caW, cbW] :=
  resolveConnections_deterministic miW gW [caW, cbW, caW] [caW, caW, cbW]
    (by decide) (by decide)
